import Mathlib

/-!
Verification of the cprex relation-extraction core against its specification.

This file gives a shallow embedding, in Lean 4, of:
  * `can_link_instances` / `get_instances`  (src/cprex/rel/rel_model.py)
  * `extract_tuple_relations` and the `ChemPropValueRelation` builder
    (src/cprex/corpus/tuples.py)
  * the custom forward/backward tensor logic of `instance_forward`
    (src/cprex/rel/rel_model.py)
  * `PubChemEntityLinker.link` (src/cprex/pubchem/linker.py)

Python floats are modelled as exact rationals (ℚ), dicts as insertion-ordered
association lists (assignment overwrites, lookup finds the latest binding),
and a raised exception (`KeyError`, `HTTPError`) as an `Option`/sum outcome.
-/

/-- A spacy entity span, restricted to the fields the core reads:
token start/end offsets, the textual label (`label_`) and the sub-type id
(`ent_id_`). -/
structure Span where
  start : Nat
  end_ : Nat
  label_ : String
  ent_id_ : String
deriving DecidableEq, Repr

/-- `Modelled from the spec:` the static property→allowed-units table
`PROPERTY_TO_UNITS` is imported by `rel_model.py` from `cprex.ner.quantities`
but is not present in the available sources.  Following §4.1 of the spec it is
modelled as an arbitrary finite mapping from property sub-type ids to lists of
allowed unit labels, passed explicitly to the functions that read it. -/
abbrev PropUnitsMap := List (String × List String)

/-- `Modelled from the spec:` a sample `PROPERTY_TO_UNITS` table containing the
two registrations that §8 of the spec describes ("density" registered with a
non-empty unit set, "toxicity" registered with an empty one). -/
def samplePropertyToUnits : PropUnitsMap :=
  [("density", ["SOLUBILITY", "DENSITY"]), ("toxicity", [])]

/-- The unit-guard condition of `can_link_instances`: the Python conjunction
`property_type and property_type in PROPERTY_TO_UNITS and
PROPERTY_TO_UNITS[property_type] and quantity_unit not in
PROPERTY_TO_UNITS[property_type]` (truthiness: a string is truthy iff
non-empty, a list iff non-empty). -/
def unitGuardRejects (pm : PropUnitsMap) (property_type quantity_unit : String) : Bool :=
  match List.lookup property_type pm with
  | some units =>
      if property_type ≠ "" ∧ units ≠ [] ∧ quantity_unit ∉ units then true else false
  | none => false

/-- Faithful embedding of `can_link_instances(ent1, ent2, max_length)`
(src/cprex/rel/rel_model.py, lines 117-147).  `pm` stands for the global
`PROPERTY_TO_UNITS` mapping.  Python truthiness: `max_length` is truthy iff
non-zero. -/
def can_link_instances (pm : PropUnitsMap) (ent1 ent2 : Span) (max_length : Nat) : Bool :=
  if ent1 = ent2 then false
  else if max_length ≠ 0 ∧ ((ent2.start : Int) - (ent1.start : Int)).natAbs > max_length then
    false
  else if ¬ ((ent1.label_ = "CHEM" ∨ ent1.label_ = "PROP" ∨ ent1.label_ = "FORMULA") ∧
      ¬ (ent2.label_ = "CHEM" ∨ ent2.label_ = "PROP" ∨ ent2.label_ = "FORMULA")) then
    false
  else if (ent1.label_ = "PROP" ∨ ent1.label_ = "FORMULA") ∧ ent2.label_ ≠ "VALUE" then
    if unitGuardRejects pm ent1.ent_id_ ent2.label_ then false else true
  else true

/-- Faithful embedding of the `get_instances` closure produced by
`create_instances` (src/cprex/rel/rel_model.py, lines 30-40): a double loop
over the document's entities keeping the pairs accepted by
`can_link_instances`. -/
def get_instances (pm : PropUnitsMap) (max_length : Nat) (ents : List Span) :
    List (Span × Span) :=
  ents.flatMap fun ent1 =>
    (ents.filter fun ent2 => can_link_instances pm ent1 ent2 max_length).map
      fun ent2 => (ent1, ent2)

theorem mem_get_instances (pm : PropUnitsMap) (L : Nat) (ents : List Span)
    (e1 e2 : Span) :
    (e1, e2) ∈ get_instances pm L ents ↔
      e1 ∈ ents ∧ e2 ∈ ents ∧ can_link_instances pm e1 e2 L = true := by
  simp only [get_instances, List.mem_flatMap, List.mem_map, List.mem_filter]
  constructor
  · rintro ⟨a, ha, b, ⟨hb, hcan⟩, heq⟩
    cases heq
    exact ⟨ha, hb, hcan⟩
  · rintro ⟨h1, h2, hcan⟩
    exact ⟨e1, h1, e2, ⟨h2, hcan⟩, rfl⟩

theorem unitGuardRejects_iff (pm : PropUnitsMap) (pt u : String) :
    unitGuardRejects pm pt u = true ↔
      (pt ≠ "" ∧ ∃ units, List.lookup pt pm = some units ∧ units ≠ [] ∧ u ∉ units) := by
  unfold unitGuardRejects
  rcases hl : List.lookup pt pm with _ | units
  · simp
  · dsimp only
    constructor
    · intro h
      split_ifs at h with hc
      exact ⟨hc.1, units, rfl, hc.2.1, hc.2.2⟩
    · rintro ⟨hpt, units', hu', hprops⟩
      cases hu'
      simp [hpt, hprops]

theorem can_link_instances_iff (pm : PropUnitsMap) (hpm : List.lookup "" pm = none)
    (e1 e2 : Span) (L : Nat) :
    can_link_instances pm e1 e2 L = true ↔
      (e1 ≠ e2 ∧
       (L ≠ 0 → ((e2.start : Int) - (e1.start : Int)).natAbs ≤ L) ∧
       (e1.label_ = "CHEM" ∨ e1.label_ = "PROP" ∨ e1.label_ = "FORMULA") ∧
       ¬ (e2.label_ = "CHEM" ∨ e2.label_ = "PROP" ∨ e2.label_ = "FORMULA") ∧
       (((e1.label_ = "PROP" ∨ e1.label_ = "FORMULA") ∧ e2.label_ ≠ "VALUE") →
         ¬ ∃ units, List.lookup e1.ent_id_ pm = some units ∧ units ≠ [] ∧
             e2.label_ ∉ units)) := by
  constructor
  · intro h
    unfold can_link_instances at h
    by_cases h1 : e1 = e2
    · rw [if_pos h1] at h
      exact absurd h (by simp)
    rw [if_neg h1] at h
    by_cases h2 : L ≠ 0 ∧ ((e2.start : Int) - (e1.start : Int)).natAbs > L
    · rw [if_pos h2] at h
      exact absurd h (by simp)
    rw [if_neg h2] at h
    have hlen : L ≠ 0 → ((e2.start : Int) - (e1.start : Int)).natAbs ≤ L := by
      intro hL0
      by_contra hgt
      exact h2 ⟨hL0, by omega⟩
    by_cases h3 : ¬ ((e1.label_ = "CHEM" ∨ e1.label_ = "PROP" ∨ e1.label_ = "FORMULA") ∧
        ¬ (e2.label_ = "CHEM" ∨ e2.label_ = "PROP" ∨ e2.label_ = "FORMULA"))
    · rw [if_pos h3] at h
      exact absurd h (by simp)
    rw [if_neg h3] at h
    rw [not_not] at h3
    by_cases h4 : (e1.label_ = "PROP" ∨ e1.label_ = "FORMULA") ∧ e2.label_ ≠ "VALUE"
    · rw [if_pos h4] at h
      by_cases h5 : unitGuardRejects pm e1.ent_id_ e2.label_ = true
      · rw [if_pos h5] at h
        exact absurd h (by simp)
      · refine ⟨h1, hlen, h3.1, h3.2, ?_⟩
        rintro - ⟨units, hl, hune, hni⟩
        by_cases hid : e1.ent_id_ = ""
        · rw [hid, hpm] at hl
          exact Option.noConfusion hl
        · exact h5 ((unitGuardRejects_iff pm e1.ent_id_ e2.label_).mpr
            ⟨hid, units, hl, hune, hni⟩)
    · exact ⟨h1, hlen, h3.1, h3.2, fun hpf => absurd hpf h4⟩
  · rintro ⟨hne, hlen, hpos, hneg, hguard⟩
    unfold can_link_instances
    rw [if_neg hne]
    rw [if_neg (show ¬ (L ≠ 0 ∧ ((e2.start : Int) - (e1.start : Int)).natAbs > L) by
      rintro ⟨hL0, hgt⟩
      exact absurd (hlen hL0) (by omega))]
    rw [if_neg (not_not.mpr ⟨hpos, hneg⟩)]
    by_cases h4 : (e1.label_ = "PROP" ∨ e1.label_ = "FORMULA") ∧ e2.label_ ≠ "VALUE"
    · rw [if_pos h4]
      cases hug : unitGuardRejects pm e1.ent_id_ e2.label_ with
      | false => simp [hug]
      | true =>
          obtain ⟨hpt, units, hl, hune, hni⟩ :=
            (unitGuardRejects_iff pm e1.ent_id_ e2.label_).mp hug
          exact absurd ⟨units, hl, hune, hni⟩ (hguard h4)
    · rw [if_neg h4]

/-- Claim C2: `get_instances` emits the ordered pair `(ent1, ent2)` of document
entities iff `ent1 ≠ ent2`; a non-zero `max_length` bounds
`abs(ent2.start - ent1.start)` (zero means unbounded); `ent1`'s label is one of
CHEM/PROP/FORMULA while `ent2`'s is not; and, for a PROP/FORMULA head with a
non-VALUE tail, the pair is rejected exactly when `ent1.ent_id_` is registered
in the property-to-units mapping with a non-empty unit list not containing
`ent2.label_`. -/
theorem claim_C2_instance_pair_generation (pm : PropUnitsMap)
    (hpm : List.lookup "" pm = none) (ents : List Span) (L : Nat) (e1 e2 : Span)
    (h1 : e1 ∈ ents) (h2 : e2 ∈ ents) :
    (e1, e2) ∈ get_instances pm L ents ↔
      (e1 ≠ e2 ∧
       (L ≠ 0 → ((e2.start : Int) - (e1.start : Int)).natAbs ≤ L) ∧
       (e1.label_ = "CHEM" ∨ e1.label_ = "PROP" ∨ e1.label_ = "FORMULA") ∧
       ¬ (e2.label_ = "CHEM" ∨ e2.label_ = "PROP" ∨ e2.label_ = "FORMULA") ∧
       (((e1.label_ = "PROP" ∨ e1.label_ = "FORMULA") ∧ e2.label_ ≠ "VALUE") →
         ¬ ∃ units, List.lookup e1.ent_id_ pm = some units ∧ units ≠ [] ∧
             e2.label_ ∉ units)) := by
  rw [mem_get_instances, can_link_instances_iff pm hpm]
  tauto

/-- Witness for claim C2: with the spec's sample table, a PROP "density" head
at token 0 and a DENSITY quantity tail at token 3 are linked at
`max_length = 10`. -/
theorem claim_C2_instance_pair_generation_witness :
    ((⟨0, 1, "PROP", "density"⟩ : Span), (⟨3, 4, "DENSITY", ""⟩ : Span)) ∈
      get_instances samplePropertyToUnits 10
        [⟨0, 1, "PROP", "density"⟩, ⟨3, 4, "DENSITY", ""⟩] :=
  (claim_C2_instance_pair_generation samplePropertyToUnits (by decide)
      [⟨0, 1, "PROP", "density"⟩, ⟨3, 4, "DENSITY", ""⟩] 10
      ⟨0, 1, "PROP", "density"⟩ ⟨3, 4, "DENSITY", ""⟩ (by decide) (by decide)).mpr
    (by
      refine ⟨by decide, by decide, by decide, by decide, ?_⟩
      rintro - ⟨units, hu, -, hni⟩
      simp only [samplePropertyToUnits, List.lookup] at hu
      norm_num at hu
      subst hu
      exact hni (by decide))

/-- The `ChemPropValueRelation` dataclass (src/cprex/corpus/tuples.py, lines
7-30), restricted to the fields the assembler writes: the mandatory `value`
span and the optional head lists, both defaulting to `None`. -/
structure ChemPropValueRelation where
  value : Span
  properties : Option (List Span) := none
  chemicals : Option (List Span) := none
deriving DecidableEq, Repr

/-- `ChemPropValueRelation.add_property`: start the list at the first head,
append afterwards. -/
def add_property (t : ChemPropValueRelation) (p : Span) : ChemPropValueRelation :=
  match t.properties with
  | none => { t with properties := some [p] }
  | some ps => { t with properties := some (ps ++ [p]) }

/-- `ChemPropValueRelation.add_chemicals`. -/
def add_chemicals (t : ChemPropValueRelation) (c : Span) : ChemPropValueRelation :=
  match t.chemicals with
  | none => { t with chemicals := some [c] }
  | some cs => { t with chemicals := some (cs ++ [c]) }

/-- `ChemPropValueRelation.add_head`: CHEM heads go to `chemicals`, every
other head to `properties`. -/
def add_head (t : ChemPropValueRelation) (head : Span) : ChemPropValueRelation :=
  if head.label_ = "CHEM" then add_chemicals t head else add_property t head

/-- A document as `extract_tuple_relations` sees it: its entity spans and its
relation matrix `doc._.rel`, an insertion-ordered mapping from
`(head_token_start, tail_token_start)` to an insertion-ordered mapping from
relation label to probability. -/
structure RelDoc where
  ents : List Span
  rel : List ((Nat × Nat) × List (String × ℚ))

/-- The `ent_start_to_ent` dict of `extract_tuple_relations`: built by a loop
over `doc.ents`, a later entity with the same start offset overwrites an
earlier one. -/
def ent_start_to_ent (ents : List Span) (k : Nat) : Option Span :=
  ents.foldl (fun acc e => if e.start = k then some e else acc) none

/-- One qualifying iteration of the inner loop of `extract_tuple_relations`
(lines 80-85): resolve tail and head through the lookup (a missing offset is a
`KeyError`, modelled as `none`), create the tuple-builder for the tail on
first use, then route the head.  The state is the insertion-ordered `tuples`
dict. -/
def addRelEntry (ents : List Span) (st : List (Nat × ChemPropValueRelation))
    (pair : Nat × Nat) : Option (List (Nat × ChemPropValueRelation)) :=
  match ent_start_to_ent ents pair.2, ent_start_to_ent ents pair.1 with
  | some value, some head =>
      let st' := if st.any (fun e => e.1 = pair.2) then st
        else st ++ [(pair.2, { value := value })]
      some (st'.map fun e => if e.1 = pair.2 then (e.1, add_head e.2 head) else e)
  | _, _ => none

/-- Faithful embedding of `extract_tuple_relations(doc, threshold)`
(src/cprex/corpus/tuples.py, lines 59-87).  The double loop over the relation
matrix and its label→probability dicts applies `addRelEntry` for every entry
with `prob >= threshold`; a `KeyError` (unresolvable offset) aborts the
computation with `none`; on success the values of the `tuples` dict are
returned in insertion order. -/
def extract_tuple_relations (doc : RelDoc) (threshold : ℚ) :
    Option (List ChemPropValueRelation) :=
  (doc.rel.foldl
      (fun st entry =>
        entry.2.foldl
          (fun st2 lp =>
            if threshold ≤ lp.2 then st2.bind fun s => addRelEntry doc.ents s entry.1
            else st2)
          st)
      (some [])).map (List.map Prod.snd)

/-- The qualifying `(head_start, tail_start)` occurrences of a relation
matrix, one per matrix entry and per label with probability ≥ threshold, in
iteration order. -/
def qualifyingPairs (doc : RelDoc) (threshold : ℚ) : List (Nat × Nat) :=
  doc.rel.flatMap fun entry =>
    entry.2.filterMap fun lp => if threshold ≤ lp.2 then some entry.1 else none

/-- First-occurrence deduplication (the key order of a Python dict built by
repeated insertion). -/
def firstDedup : List Nat → List Nat
  | [] => []
  | a :: l => a :: firstDedup (l.filter fun b => b ≠ a)
termination_by l => l.length
decreasing_by
  simp only [List.length_cons]
  exact Nat.lt_succ_of_le (List.length_filter_le _ _)

/-- The heads resolved for a given tail among a list of qualifying
occurrences, in occurrence order. -/
def headsOf (ents : List Span) (occs : List (Nat × Nat)) (t : Nat) : List Span :=
  occs.filterMap fun p => if p.2 = t then ent_start_to_ent ents p.1 else none

/-- `none` for the empty list, `some` otherwise: the shape `add_head` leaves
an optional head list in. -/
def optList (l : List Span) : Option (List Span) :=
  match l with
  | [] => none
  | l => some l

/-- The tuple the assembler is specified to emit for tail offset `t`: the
resolved tail as value, the CHEM heads as `chemicals` and the remaining heads
as `properties`, each `none` when empty. -/
def tupleOf (ents : List Span) (occs : List (Nat × Nat)) (t : Nat) :
    ChemPropValueRelation :=
  { value := (ent_start_to_ent ents t).getD ⟨0, 0, "", ""⟩,
    properties := optList ((headsOf ents occs t).filter fun h => ¬ h.label_ = "CHEM"),
    chemicals := optList ((headsOf ents occs t).filter fun h => h.label_ = "CHEM") }

/-- The grouped view of the assembler's `tuples` dict after processing a list
of qualifying occurrences: one entry per distinct tail offset in
first-occurrence order. -/
def groupState (ents : List Span) (occs : List (Nat × Nat)) :
    List (Nat × ChemPropValueRelation) :=
  (firstDedup (occs.map Prod.snd)).map fun t => (t, tupleOf ents occs t)

/-- An occurrence is resolvable when both its offsets have an entity in the
start-offset lookup. -/
def resolvable (ents : List Span) (p : Nat × Nat) : Prop :=
  (ent_start_to_ent ents p.1).isSome ∧ (ent_start_to_ent ents p.2).isSome

instance resolvableDecidable (ents : List Span) (p : Nat × Nat) :
    Decidable (resolvable ents p) :=
  inferInstanceAs (Decidable (_ ∧ _))

/-- The assembler's fold, restated over a flat list of qualifying
occurrences. -/
def runOccs (ents : List Span) (init : Option (List (Nat × ChemPropValueRelation)))
    (occs : List (Nat × Nat)) : Option (List (Nat × ChemPropValueRelation)) :=
  occs.foldl (fun s p => s.bind fun st => addRelEntry ents st p) init

theorem runOccs_inner (ents : List Span) (θ : ℚ) (pair : Nat × Nat) :
    ∀ (rd : List (String × ℚ)) (init : Option (List (Nat × ChemPropValueRelation))),
      rd.foldl
          (fun st2 lp =>
            if θ ≤ lp.2 then st2.bind fun s => addRelEntry ents s pair else st2)
          init =
        runOccs ents init (rd.filterMap fun lp => if θ ≤ lp.2 then some pair else none) := by
  intro rd
  induction rd with
  | nil => intro init; rfl
  | cons lp rest ih =>
      intro init
      rw [List.foldl_cons, List.filterMap_cons]
      by_cases hq : θ ≤ lp.2
      · rw [if_pos hq, if_pos hq, ih]
        rfl
      · rw [if_neg hq, if_neg hq, ih]

theorem extract_eq_runOccs (doc : RelDoc) (θ : ℚ) :
    extract_tuple_relations doc θ =
      (runOccs doc.ents (some []) (qualifyingPairs doc θ)).map (List.map Prod.snd) := by
  unfold extract_tuple_relations qualifyingPairs
  congr 1
  generalize (some [] : Option (List (Nat × ChemPropValueRelation))) = init
  induction doc.rel generalizing init with
  | nil => rfl
  | cons e rest ih =>
      rw [List.foldl_cons, List.flatMap_cons, runOccs, List.foldl_append, ih,
        runOccs_inner doc.ents θ e.1 e.2 init]
      rfl

theorem runOccs_none (ents : List Span) (occs : List (Nat × Nat)) :
    runOccs ents none occs = none := by
  induction occs with
  | nil => rfl
  | cons p rest ih => simpa [runOccs, List.foldl_cons] using ih

theorem addRelEntry_none (ents : List Span) (st : List (Nat × ChemPropValueRelation))
    (p : Nat × Nat) (h : ¬ resolvable ents p) : addRelEntry ents st p = none := by
  unfold addRelEntry
  rcases h2 : ent_start_to_ent ents p.2 with _ | v
  · rfl
  rcases h1 : ent_start_to_ent ents p.1 with _ | hd
  · rfl
  exact absurd ⟨by rw [h1]; rfl, by rw [h2]; rfl⟩ h

theorem runOccs_unresolvable (ents : List Span) :
    ∀ (occs : List (Nat × Nat)), (∃ p ∈ occs, ¬ resolvable ents p) →
      ∀ init, runOccs ents init occs = none := by
  intro occs
  induction occs with
  | nil => rintro ⟨p, hp, -⟩; exact absurd hp (List.not_mem_nil p)
  | cons q rest ih =>
      rintro ⟨p, hp, hnres⟩ init
      rcases List.mem_cons.mp hp with hq | hrest
      · subst hq
        rw [runOccs, List.foldl_cons]
        have : (init.bind fun st => addRelEntry ents st p) = none := by
          rcases init with _ | st
          · rfl
          · simpa using addRelEntry_none ents st p hnres
        rw [this]
        exact runOccs_none ents rest
      · rw [runOccs, List.foldl_cons]
        exact ih ⟨p, hrest, hnres⟩ _

theorem mem_firstDedup (a : Nat) : ∀ (l : List Nat), a ∈ firstDedup l ↔ a ∈ l := by
  intro l
  induction l using firstDedup.induct with
  | case1 => simp [firstDedup]
  | case2 b l ih =>
      rw [firstDedup, List.mem_cons, List.mem_cons, ih, List.mem_filter]
      by_cases hab : a = b
      · simp [hab]
      · simp [hab]

theorem firstDedup_append (a : Nat) : ∀ (l : List Nat),
    firstDedup (l ++ [a]) = if a ∈ l then firstDedup l else firstDedup l ++ [a] := by
  intro l
  induction l using firstDedup.induct with
  | case1 => simp [firstDedup]
  | case2 b l ih =>
      by_cases hab : a = b
      · subst hab
        rw [List.cons_append, firstDedup, List.filter_append,
          if_pos (List.mem_cons_self a l), firstDedup]
        simp
      · rw [List.cons_append, firstDedup, List.filter_append]
        have hfa : List.filter (fun x => x ≠ b) [a] = [a] := by simp [hab]
        rw [hfa, ih]
        have hmemiff : a ∈ List.filter (fun x => x ≠ b) l ↔ a ∈ l := by
          simp [hab]
        by_cases hal : a ∈ l
        · rw [if_pos (hmemiff.mpr hal), if_pos (List.mem_cons.mpr (Or.inr hal)),
            firstDedup]
        · rw [if_neg (fun h => hal (hmemiff.mp h)),
            if_neg (by simp [List.mem_cons, hab, hal]), firstDedup, List.cons_append]

theorem headsOf_append_singleton (ents : List Span) (occs : List (Nat × Nat))
    (p : Nat × Nat) (t : Nat) (head : Span)
    (hh : ent_start_to_ent ents p.1 = some head) :
    headsOf ents (occs ++ [p]) t =
      headsOf ents occs t ++ (if p.2 = t then [head] else []) := by
  unfold headsOf
  rw [List.filterMap_append]
  congr 1
  by_cases hpt : p.2 = t
  · simp [hpt, hh]
  · simp [hpt]

theorem headsOf_of_not_mem (ents : List Span) (occs : List (Nat × Nat)) (t : Nat)
    (h : t ∉ occs.map Prod.snd) : headsOf ents occs t = [] := by
  unfold headsOf
  induction occs with
  | nil => rfl
  | cons q rest ih =>
      rw [List.filterMap_cons]
      have hqt : ¬ q.2 = t := by
        intro he
        exact h (List.mem_map.mpr ⟨q, List.mem_cons_self q rest, he⟩)
      rw [if_neg hqt]
      exact ih fun hm => h (List.mem_cons_of_mem _ hm)

theorem add_head_optList (hs : List Span) (value : Span) (head : Span) :
    add_head
        { value := value,
          properties := optList (hs.filter fun h => ¬ h.label_ = "CHEM"),
          chemicals := optList (hs.filter fun h => h.label_ = "CHEM") }
        head =
      { value := value,
        properties := optList ((hs ++ [head]).filter fun h => ¬ h.label_ = "CHEM"),
        chemicals := optList ((hs ++ [head]).filter fun h => h.label_ = "CHEM") } := by
  rw [List.filter_append, List.filter_append]
  by_cases hc : head.label_ = "CHEM"
  · have h1 : List.filter (fun h => h.label_ = "CHEM") [head] = [head] := by simp [hc]
    have h2 : List.filter (fun h => ¬ h.label_ = "CHEM") [head] = [] := by simp [hc]
    rw [h1, h2, List.append_nil]
    unfold add_head
    rw [if_pos hc]
    unfold add_chemicals
    rcases hf : hs.filter (fun h => h.label_ = "CHEM") with _ | ⟨c, cs⟩
    · rw [hf]
      rfl
    · rw [hf]
      rfl
  · have h1 : List.filter (fun h => h.label_ = "CHEM") [head] = [] := by simp [hc]
    have h2 : List.filter (fun h => ¬ h.label_ = "CHEM") [head] = [head] := by
      simp [hc]
    rw [h1, h2, List.append_nil]
    unfold add_head
    rw [if_neg hc]
    unfold add_property
    rcases hf : hs.filter (fun h => ¬ h.label_ = "CHEM") with _ | ⟨c, cs⟩
    · rw [hf]
      rfl
    · rw [hf]
      rfl

theorem tupleOf_append (ents : List Span) (pre : List (Nat × Nat)) (p : Nat × Nat)
    (t : Nat) (head : Span) (hh : ent_start_to_ent ents p.1 = some head) :
    tupleOf ents (pre ++ [p]) t =
      if p.2 = t then add_head (tupleOf ents pre t) head else tupleOf ents pre t := by
  unfold tupleOf
  rw [headsOf_append_singleton ents pre p t head hh]
  by_cases hpt : p.2 = t
  · rw [if_pos hpt, if_pos hpt, add_head_optList]
  · rw [if_neg hpt, if_neg hpt, List.append_nil]

theorem groupState_any_key (ents : List Span) (pre : List (Nat × Nat)) (k : Nat) :
    (groupState ents pre).any (fun e => e.1 = k) = true ↔ k ∈ pre.map Prod.snd := by
  rw [List.any_eq_true]
  constructor
  · rintro ⟨e, he, hk⟩
    obtain ⟨t, ht, rfl⟩ := List.mem_map.mp he
    have htk : t = k := by simpa using hk
    subst htk
    exact (mem_firstDedup t _).mp ht
  · intro hk
    exact ⟨(k, tupleOf ents pre k),
      List.mem_map.mpr ⟨k, (mem_firstDedup k _).mpr hk, rfl⟩, by simp⟩

theorem addRelEntry_groupState (ents : List Span) (pre : List (Nat × Nat))
    (p : Nat × Nat) (hres : resolvable ents p) :
    addRelEntry ents (groupState ents pre) p = some (groupState ents (pre ++ [p])) := by
  obtain ⟨h1s, h2s⟩ := hres
  obtain ⟨head, hh⟩ := Option.isSome_iff_exists.mp h1s
  obtain ⟨value, hv⟩ := Option.isSome_iff_exists.mp h2s
  unfold addRelEntry
  rw [hv, hh]
  dsimp only
  by_cases hmem : p.2 ∈ pre.map Prod.snd
  · rw [if_pos ((groupState_any_key ents pre p.2).mpr hmem)]
    congr 1
    unfold groupState
    rw [List.map_map, List.map_append]
    simp only [List.map_cons, List.map_nil]
    rw [firstDedup_append, if_pos hmem]
    refine List.map_congr_left fun t _ => ?_
    rw [tupleOf_append ents pre p t head hh]
    by_cases htp : t = p.2
    · subst htp
      simp
    · have : ¬ p.2 = t := fun h => htp h.symm
      simp [Function.comp, htp, this]
  · rw [if_neg (fun hc => hmem ((groupState_any_key ents pre p.2).mp hc))]
    congr 1
    rw [List.map_append]
    unfold groupState
    rw [List.map_append]
    simp only [List.map_cons, List.map_nil]
    rw [firstDedup_append, if_neg hmem, List.map_append]
    congr 1
    · rw [List.map_map]
      refine List.map_congr_left fun t ht => ?_
      dsimp only [Function.comp]
      have htp : ¬ t = p.2 := by
        intro he
        exact hmem (he ▸ (mem_firstDedup t _).mp ht)
      rw [if_neg htp, tupleOf_append ents pre p t head hh,
        if_neg (fun h => htp h.symm)]
    · have hnil : headsOf ents pre p.2 = [] := headsOf_of_not_mem ents pre p.2 hmem
      have hpre : tupleOf ents pre p.2 =
          { value := value, properties := none, chemicals := none } := by
        unfold tupleOf
        rw [hnil, hv]
        rfl
      have hfin : tupleOf ents (pre ++ [p]) p.2 =
          add_head { value := value, properties := none, chemicals := none } head := by
        have happ := tupleOf_append ents pre p p.2 head hh
        rw [if_pos rfl, hpre] at happ
        exact happ
      simp [hfin]

theorem runOccs_groupState (ents : List Span) :
    ∀ (occs pre : List (Nat × Nat)), (∀ p ∈ occs, resolvable ents p) →
      runOccs ents (some (groupState ents pre)) occs =
        some (groupState ents (pre ++ occs)) := by
  intro occs
  induction occs with
  | nil => intro pre _; simp [runOccs]
  | cons q rest ih =>
      intro pre hres
      rw [runOccs, List.foldl_cons]
      have hq : resolvable ents q := hres q (List.mem_cons_self q rest)
      have hstep := addRelEntry_groupState ents pre q hq
      have hbind : ((some (groupState ents pre)).bind fun st => addRelEntry ents st q) =
          addRelEntry ents (groupState ents pre) q := rfl
      rw [hbind, hstep]
      have := ih (pre ++ [q]) (fun p hp => hres p (List.mem_cons_of_mem q hp))
      rw [runOccs] at this
      rw [this, List.append_assoc]
      rfl

theorem groupState_nil (ents : List Span) : groupState ents [] = [] := by
  unfold groupState
  simp [firstDedup]

theorem extract_tuple_relations_eq_spec (doc : RelDoc) (θ : ℚ)
    (hres : ∀ p ∈ qualifyingPairs doc θ, resolvable doc.ents p) :
    extract_tuple_relations doc θ =
      some ((firstDedup ((qualifyingPairs doc θ).map Prod.snd)).map
        (tupleOf doc.ents (qualifyingPairs doc θ))) := by
  rw [extract_eq_runOccs]
  have hrun := runOccs_groupState doc.ents (qualifyingPairs doc θ) [] hres
  rw [groupState_nil, List.nil_append] at hrun
  rw [hrun]
  unfold groupState
  simp only [Option.map_some', List.map_map]
  rfl

theorem extract_some_resolvable (doc : RelDoc) (θ : ℚ)
    (tuples : List ChemPropValueRelation)
    (hex : extract_tuple_relations doc θ = some tuples) :
    ∀ p ∈ qualifyingPairs doc θ, resolvable doc.ents p := by
  by_contra hcon
  push_neg at hcon
  obtain ⟨p, hp, hnr⟩ := hcon
  rw [extract_eq_runOccs,
    runOccs_unresolvable doc.ents (qualifyingPairs doc θ) ⟨p, hp, hnr⟩ (some [])] at hex
  exact Option.noConfusion hex

/-- Claim C1: for every document, relation matrix and threshold whose
qualifying entries all resolve, `extract_tuple_relations` returns exactly one
tuple per distinct tail offset having at least one entry with some label
probability ≥ threshold (tails in first-appearance order), and that tuple
accumulates every qualifying head for the tail: CHEM-labelled heads in its
`chemicals` list and all other heads in its `properties` list, in matrix
iteration order. -/
theorem claim_C1_assembler_grouping (doc : RelDoc) (θ : ℚ)
    (hres : ∀ p ∈ qualifyingPairs doc θ, resolvable doc.ents p) :
    extract_tuple_relations doc θ =
      some ((firstDedup ((qualifyingPairs doc θ).map Prod.snd)).map
        (tupleOf doc.ents (qualifyingPairs doc θ))) :=
  extract_tuple_relations_eq_spec doc θ hres

/-- The spec's §8 assembler-grouping example: a CHEM head at token 0, a PROP
head at token 2 and a TEMPERATURE tail at token 5, with probabilities 0.9 and
0.5 against the default threshold 0.45 (= 9/20). -/
def exampleDoc : RelDoc :=
  { ents := [⟨0, 1, "CHEM", ""⟩, ⟨2, 4, "PROP", "temperature"⟩,
      ⟨5, 7, "TEMPERATURE", ""⟩],
    rel := [((0, 5), [("has_value", mkRat 9 10)]),
      ((2, 5), [("has_value", mkRat 1 2)])] }

/-- Witness for claim C1: on the grouping example all qualifying entries
resolve and the theorem applies. -/
theorem claim_C1_assembler_grouping_witness :
    (∀ p ∈ qualifyingPairs exampleDoc (mkRat 9 20), resolvable exampleDoc.ents p) ∧
      extract_tuple_relations exampleDoc (mkRat 9 20) =
        some ((firstDedup ((qualifyingPairs exampleDoc (mkRat 9 20)).map Prod.snd)).map
          (tupleOf exampleDoc.ents (qualifyingPairs exampleDoc (mkRat 9 20)))) :=
  ⟨by decide, claim_C1_assembler_grouping exampleDoc (mkRat 9 20) (by decide)⟩

/-- A document whose relation matrix has one well-formed qualifying entry
(tail at 5) and one qualifying entry whose tail offset 9 has no entity. -/
def malformedDoc : RelDoc :=
  { ents := [⟨0, 1, "CHEM", ""⟩, ⟨5, 7, "TEMPERATURE", ""⟩],
    rel := [((0, 5), [("has_value", mkRat 9 10)]),
      ((0, 9), [("has_value", mkRat 9 10)])] }

/-- Counterexample to claim C3: on `malformedDoc` the assembler does not
return the tuple of the remaining well-formed entry — the unresolvable offset
9 raises a `KeyError` (modelled as `none`), aborting the whole call. -/
theorem claim_C3_counterexample :
    extract_tuple_relations malformedDoc (mkRat 9 20) = none ∧
      extract_tuple_relations malformedDoc (mkRat 9 20) ≠
        some [{ value := ⟨5, 7, "TEMPERATURE", ""⟩,
                chemicals := some [⟨0, 1, "CHEM", ""⟩] }] := by
  decide

/-- Claim C3 (amended): when any qualifying matrix entry references a head or
tail offset with no entity in the start-offset lookup,
`extract_tuple_relations` does not skip it: the dict access raises a
`KeyError` (modelled as `none`) and no tuples are returned at all. -/
theorem claim_C3_unresolved_span_raises (doc : RelDoc) (θ : ℚ)
    (h : ∃ p ∈ qualifyingPairs doc θ, ¬ resolvable doc.ents p) :
    extract_tuple_relations doc θ = none := by
  rw [extract_eq_runOccs, runOccs_unresolvable doc.ents (qualifyingPairs doc θ) h (some [])]
  rfl

/-- Witness for claim C3 (amended): `malformedDoc` has a qualifying entry with
an unresolvable tail, so the assembler aborts. -/
theorem claim_C3_unresolved_span_raises_witness :
    (∃ p ∈ qualifyingPairs malformedDoc (mkRat 9 20),
        ¬ resolvable malformedDoc.ents p) ∧
      extract_tuple_relations malformedDoc (mkRat 9 20) = none :=
  ⟨by decide, claim_C3_unresolved_span_raises malformedDoc (mkRat 9 20) (by decide)⟩

theorem optList_of_ne_nil (l : List Span) (h : l ≠ []) : optList l = some l := by
  cases l with
  | nil => exact absurd rfl h
  | cons a l => rfl

theorem mem_headsOf (ents : List Span) (occs : List (Nat × Nat)) (q : Nat × Nat)
    (head : Span) (hq : q ∈ occs) (hh : ent_start_to_ent ents q.1 = some head) :
    head ∈ headsOf ents occs q.2 := by
  unfold headsOf
  exact List.mem_filterMap.mpr ⟨q, hq, by rw [if_pos rfl, hh]⟩

/-- Claim C6: every tuple returned by `extract_tuple_relations` carries at
least one head — its `chemicals` list or its `properties` list is non-`None`
and non-empty (and it has exactly the one `value` its builder was seeded
with). -/
theorem claim_C6_no_headless_tuple (doc : RelDoc) (θ : ℚ)
    (tuples : List ChemPropValueRelation) (t : ChemPropValueRelation)
    (hex : extract_tuple_relations doc θ = some tuples) (ht : t ∈ tuples) :
    (∃ l, t.chemicals = some l ∧ l ≠ []) ∨ (∃ l, t.properties = some l ∧ l ≠ []) := by
  have hres := extract_some_resolvable doc θ tuples hex
  rw [extract_tuple_relations_eq_spec doc θ hres] at hex
  have htuples : tuples =
      (firstDedup ((qualifyingPairs doc θ).map Prod.snd)).map
        (tupleOf doc.ents (qualifyingPairs doc θ)) := by
    injection hex.symm
  subst htuples
  obtain ⟨t0, ht0, rfl⟩ := List.mem_map.mp ht
  have ht0m : t0 ∈ (qualifyingPairs doc θ).map Prod.snd := (mem_firstDedup t0 _).mp ht0
  obtain ⟨q, hq, hqt⟩ := List.mem_map.mp ht0m
  obtain ⟨head, hh⟩ := Option.isSome_iff_exists.mp (hres q hq).1
  have hmem : head ∈ headsOf doc.ents (qualifyingPairs doc θ) t0 :=
    hqt ▸ mem_headsOf doc.ents (qualifyingPairs doc θ) q head hq hh
  by_cases hc : head.label_ = "CHEM"
  · left
    have hfm : head ∈ (headsOf doc.ents (qualifyingPairs doc θ) t0).filter
        (fun h => h.label_ = "CHEM") := List.mem_filter.mpr ⟨hmem, by simp [hc]⟩
    refine ⟨_, optList_of_ne_nil _ (List.ne_nil_of_mem hfm), List.ne_nil_of_mem hfm⟩
  · right
    have hfm : head ∈ (headsOf doc.ents (qualifyingPairs doc θ) t0).filter
        (fun h => ¬ h.label_ = "CHEM") := List.mem_filter.mpr ⟨hmem, by simp [hc]⟩
    refine ⟨_, optList_of_ne_nil _ (List.ne_nil_of_mem hfm), List.ne_nil_of_mem hfm⟩

/-- Witness for claim C6: on the grouping example the returned tuple has a
non-empty chemicals list. -/
theorem claim_C6_no_headless_tuple_witness :
    (∃ l, ({ value := ⟨5, 7, "TEMPERATURE", ""⟩,
             properties := some [⟨2, 4, "PROP", "temperature"⟩],
             chemicals := some [⟨0, 1, "CHEM", ""⟩] } :
        ChemPropValueRelation).chemicals = some l ∧ l ≠ []) ∨
      (∃ l, ({ value := ⟨5, 7, "TEMPERATURE", ""⟩,
               properties := some [⟨2, 4, "PROP", "temperature"⟩],
               chemicals := some [⟨0, 1, "CHEM", ""⟩] } :
          ChemPropValueRelation).properties = some l ∧ l ≠ []) :=
  claim_C6_no_headless_tuple exampleDoc (mkRat 9 20)
    [{ value := ⟨5, 7, "TEMPERATURE", ""⟩,
       properties := some [⟨2, 4, "PROP", "temperature"⟩],
       chemicals := some [⟨0, 1, "CHEM", ""⟩] }]
    { value := ⟨5, 7, "TEMPERATURE", ""⟩,
      properties := some [⟨2, 4, "PROP", "temperature"⟩],
      chemicals := some [⟨0, 1, "CHEM", ""⟩] }
    (by decide) (by decide)

theorem filterMap_if_const {α : Type} (θ : ℚ) (c : α) :
    ∀ (rd : List (String × ℚ)),
      (rd.filterMap fun lp => if θ ≤ lp.2 then some c else none) =
        List.replicate (rd.filter fun lp => θ ≤ lp.2).length c := by
  intro rd
  induction rd with
  | nil => rfl
  | cons lp rest ih =>
      rw [List.filterMap_cons, List.filter_cons]
      by_cases hq : θ ≤ lp.2
      · rw [if_pos hq, if_pos (by simpa using hq), List.length_cons, List.replicate_succ,
          ih]
      · rw [if_neg hq, if_neg (by simpa using hq), ih]

theorem firstDedup_replicate (k : Nat) (t : Nat) (hk : k ≠ 0) :
    firstDedup (List.replicate k t) = [t] := by
  cases k with
  | zero => exact absurd rfl hk
  | succ n =>
      rw [List.replicate_succ, firstDedup]
      have hf : (List.replicate n t).filter (fun b => b ≠ t) = [] := by
        simp
      rw [hf]
      simp [firstDedup]

theorem filterMap_replicate_some {α β : Type} (f : α → Option β) (a : α) (b : β)
    (hf : f a = some b) : ∀ (k : Nat), (List.replicate k a).filterMap f =
      List.replicate k b := by
  intro k
  induction k with
  | zero => rfl
  | succ n ih =>
      rw [List.replicate_succ, List.replicate_succ, List.filterMap_cons, hf, ih]

/-- Claim C9: when a single matrix entry `(h, t)` carries several labels with
probability ≥ threshold, the same head span is appended once per qualifying
label, so the emitted tuple's head list contains that head with multiplicity
equal to the number of qualifying labels (stated for a CHEM head; the
corresponding statement for other labels puts the copies in `properties`). -/
theorem claim_C9_duplicate_heads (doc : RelDoc) (θ : ℚ) (h t : Nat)
    (rd : List (String × ℚ)) (head value : Span)
    (hrel : doc.rel = [((h, t), rd)])
    (hh : ent_start_to_ent doc.ents h = some head)
    (hv : ent_start_to_ent doc.ents t = some value)
    (hc : head.label_ = "CHEM")
    (hk : (rd.filter fun lp => θ ≤ lp.2) ≠ []) :
    extract_tuple_relations doc θ =
      some [{ value := value, properties := none,
              chemicals := some (List.replicate
                (rd.filter fun lp => θ ≤ lp.2).length head) }] := by
  have hq : qualifyingPairs doc θ =
      List.replicate (rd.filter fun lp => θ ≤ lp.2).length (h, t) := by
    unfold qualifyingPairs
    rw [hrel, List.flatMap_cons, List.flatMap_nil, List.append_nil]
    exact filterMap_if_const θ (h, t) rd
  have hlen : (rd.filter fun lp => θ ≤ lp.2).length ≠ 0 := by
    intro h0
    exact hk (List.eq_nil_of_length_eq_zero h0)
  have hres : ∀ p ∈ qualifyingPairs doc θ, resolvable doc.ents p := by
    intro p hp
    rw [hq] at hp
    have : p = (h, t) := List.eq_of_mem_replicate hp
    subst this
    exact ⟨by rw [hh]; rfl, by rw [hv]; rfl⟩
  rw [extract_tuple_relations_eq_spec doc θ hres, hq]
  have hmap : (List.replicate (rd.filter fun lp => θ ≤ lp.2).length ((h, t) : Nat × Nat)).map
      Prod.snd = List.replicate (rd.filter fun lp => θ ≤ lp.2).length t := by
    rw [List.map_replicate]
  rw [hmap, firstDedup_replicate _ t hlen, List.map_cons, List.map_nil]
  congr 2
  unfold tupleOf
  have hheads : headsOf doc.ents
      (List.replicate (rd.filter fun lp => θ ≤ lp.2).length ((h, t) : Nat × Nat)) t =
      List.replicate (rd.filter fun lp => θ ≤ lp.2).length head := by
    unfold headsOf
    exact filterMap_replicate_some _ (h, t) head (by rw [if_pos rfl, hh]) _
  rw [hheads, hv]
  have hfc : (List.replicate (rd.filter fun lp => θ ≤ lp.2).length head).filter
      (fun hd => hd.label_ = "CHEM") =
      List.replicate (rd.filter fun lp => θ ≤ lp.2).length head := by
    rw [List.filter_replicate, if_pos (by simp [hc])]
  have hfp : (List.replicate (rd.filter fun lp => θ ≤ lp.2).length head).filter
      (fun hd => ¬ hd.label_ = "CHEM") = [] := by
    rw [List.filter_replicate, if_neg (by simp [hc])]
  rw [hfc, hfp]
  rcases hn : (rd.filter fun lp => θ ≤ lp.2).length with _ | n
  · exact absurd hn hlen
  · rw [hn, List.replicate_succ]
    rfl

/-- Witness for claim C9: one matrix entry with two qualifying labels for a
CHEM head yields a tuple whose chemicals list holds the head twice. -/
theorem claim_C9_duplicate_heads_witness :
    extract_tuple_relations
        { ents := [⟨0, 1, "CHEM", ""⟩, ⟨5, 7, "TEMPERATURE", ""⟩],
          rel := [((0, 5), [("has_value", mkRat 9 10), ("other", mkRat 1 2)])] }
        (mkRat 9 20) =
      some [{ value := ⟨5, 7, "TEMPERATURE", ""⟩, properties := none,
              chemicals := some [⟨0, 1, "CHEM", ""⟩, ⟨0, 1, "CHEM", ""⟩] }] := by
  have h := claim_C9_duplicate_heads
    { ents := [⟨0, 1, "CHEM", ""⟩, ⟨5, 7, "TEMPERATURE", ""⟩],
      rel := [((0, 5), [("has_value", mkRat 9 10), ("other", mkRat 1 2)])] }
    (mkRat 9 20) 0 5 [("has_value", mkRat 9 10), ("other", mkRat 1 2)]
    ⟨0, 1, "CHEM", ""⟩ ⟨5, 7, "TEMPERATURE", ""⟩ rfl (by decide) (by decide) rfl
    (by decide)
  rw [h]
  decide

/-- A property record returned by the PubChem REST API: the canonical `CID`
plus the remaining requested property fields (opaque to `link`). -/
structure PropRec where
  CID : String
  fields : List (String × String)
deriving DecidableEq, Repr

/-- The mutable state of a `PubChemEntityLinker`: `_synonyms` (lower-cased
synonym → canonical id) and `_properties` (canonical id → property record).
Dict assignment is modelled by consing, lookup by the first (most recent)
binding. -/
structure LinkerState where
  synonyms : List (String × String)
  properties : List (String × PropRec)
deriving DecidableEq, Repr

/-- Outcome of one `_rest_api_search` call: an `HTTPError` raised by
`raise_for_status` (NotFound, Timeout and generic failures all behave
identically inside `link`: log and fall through to `return None`), or a
normal return whose payload may be `None` when the response carried no
recognisable record. -/
inductive RestResult (α : Type) where
  | httpError
  | ok (payload : Option α)

/-- Faithful embedding of `PubChemEntityLinker.link`
(src/cprex/pubchem/linker.py, lines 29-59).  `propsApi` models
`_rest_api_search(compound, properties)` and `synApi` models
`_rest_api_search(compound, None)`; the synonyms payload is `none` when the
returned record has no "Synonym" key.  The result carries the returned value,
the updated state and the number of outbound REST queries issued. -/
def link (propsApi : String → RestResult PropRec)
    (synApi : String → RestResult (Option (List String)))
    (st : LinkerState) (compound : String) :
    Option PropRec × LinkerState × Nat :=
  match List.lookup compound.toLower st.synonyms with
  | some cid => (List.lookup cid st.properties, st, 0)
  | none =>
    match propsApi compound with
    | .httpError => (none, st, 1)
    | .ok none => (none, st, 1)
    | .ok (some props) =>
        let cid := props.CID
        let st1 : LinkerState := { st with properties := (cid, props) :: st.properties }
        match synApi compound with
        | .httpError => (none, st1, 2)
        | .ok none => (some props, st1, 2)
        | .ok (some none) => (some props, st1, 2)
        | .ok (some (some syns)) =>
            (some props,
             { st1 with
               synonyms := syns.foldl (fun l s => (s.toLower, cid) :: l) st1.synonyms },
             2)

theorem lookup_syn_foldl (cid : String) :
    ∀ (syns : List String) (base : List (String × String)) (key : String),
      ((∃ s ∈ syns, s.toLower = key) ∨ List.lookup key base = some cid) →
      List.lookup key (syns.foldl (fun l s => (s.toLower, cid) :: l) base) = some cid := by
  intro syns
  induction syns with
  | nil =>
      rintro base key (⟨s, hs, -⟩ | hbase)
      · exact absurd hs (List.not_mem_nil s)
      · exact hbase
  | cons a rest ih =>
      rintro base key h
      rw [List.foldl_cons]
      refine ih ((a.toLower, cid) :: base) key ?_
      rcases h with ⟨s, hs, hsl⟩ | hbase
      · rcases List.mem_cons.mp hs with rfl | hrest
        · right
          rw [List.lookup, hsl]
          simp
        · exact Or.inl ⟨s, hrest, hsl⟩
      · by_cases hk : key = a.toLower
        · right
          rw [List.lookup, hk]
          simp
        · have hbeq : (key == a.toLower) = false := by simpa using hk
          right
          rw [List.lookup, hbeq]
          exact hbase

/-- Claim C10: `link` is not atomic on error — when the properties request
succeeds but the synonyms request raises an `HTTPError`, the call reports
failure (`None`) although the properties cache has already been mutated with
the fetched record, and no synonym mapping is added, so no synonym lookup can
reach the new record afterwards if none could before. -/
theorem claim_C10_partial_failure_caches_properties
    (propsApi : String → RestResult PropRec)
    (synApi : String → RestResult (Option (List String)))
    (st : LinkerState) (compound : String) (props : PropRec)
    (hmiss : List.lookup compound.toLower st.synonyms = none)
    (hp : propsApi compound = .ok (some props))
    (hs : synApi compound = .httpError) :
    link propsApi synApi st compound =
      (none, { st with properties := (props.CID, props) :: st.properties }, 2) ∧
    (link propsApi synApi st compound).2.1.synonyms = st.synonyms ∧
    ((∀ s, List.lookup s st.synonyms ≠ some props.CID) →
      ∀ s, List.lookup s (link propsApi synApi st compound).2.1.synonyms ≠
        some props.CID) := by
  have hlink : link propsApi synApi st compound =
      (none, { st with properties := (props.CID, props) :: st.properties }, 2) := by
    unfold link
    rw [hmiss, hp, hs]
  refine ⟨hlink, by rw [hlink], ?_⟩
  intro hun s
  rw [hlink]
  exact hun s

/-- Witness for claim C10: a concrete oracle succeeding on the properties
request and failing on the synonyms request mutates the empty cache yet
returns failure. -/
theorem claim_C10_partial_failure_caches_properties_witness :
    link (fun _ => .ok (some ⟨"cid1", [("MolecularWeight", "206.28")]⟩))
        (fun _ => .httpError) ⟨[], []⟩ "ibuprofen" =
      (none, { synonyms := [],
               properties := [("cid1", ⟨"cid1", [("MolecularWeight", "206.28")]⟩)] },
       2) :=
  (claim_C10_partial_failure_caches_properties
    (fun _ => .ok (some ⟨"cid1", [("MolecularWeight", "206.28")]⟩))
    (fun _ => .httpError) ⟨[], []⟩ "ibuprofen"
    ⟨"cid1", [("MolecularWeight", "206.28")]⟩ rfl rfl rfl).1

/-- Counterexample to claim C8 as stated: after an error outcome ("the
synonyms request raised") the cache is not untouched — the properties cache
has gained a record even though `link` returned `None`. -/
theorem claim_C8_counterexample :
    (link (fun _ => .ok (some ⟨"cid1", []⟩)) (fun _ => .httpError)
        ⟨[], []⟩ "ibuprofen").1 = none ∧
      (link (fun _ => .ok (some ⟨"cid1", []⟩)) (fun _ => .httpError)
          ⟨[], []⟩ "ibuprofen").2.1.properties ≠ ([] : List (String × PropRec)) := by
  constructor
  · rfl
  · intro h
    exact List.noConfusion h

theorem link_queries_pos (propsApi : String → RestResult PropRec)
    (synApi : String → RestResult (Option (List String)))
    (st : LinkerState) (c : String)
    (hmiss : List.lookup c.toLower st.synonyms = none) :
    1 ≤ (link propsApi synApi st c).2.2 := by
  unfold link
  rw [hmiss]
  rcases propsApi c with _ | p
  · exact Nat.le_refl 1
  · rcases p with _ | props
    · exact Nat.le_refl 1
    · rcases synApi c with _ | q
      · exact Nat.le_succ 1
      · rcases q with _ | r
        · exact Nat.le_succ 1
        · rcases r with _ | syns
          · exact Nat.le_succ 1
          · exact Nat.le_succ 1

theorem link_success_caches (propsApi : String → RestResult PropRec)
    (synApi : String → RestResult (Option (List String)))
    (st : LinkerState) (c : String) (props : PropRec) (syns : List String)
    (hmiss : List.lookup c.toLower st.synonyms = none)
    (hp : propsApi c = .ok (some props))
    (hs : synApi c = .ok (some (some syns)))
    (syn : String) (hsyn : syn ∈ syns) (c2 : String)
    (hc2 : c2.toLower = syn.toLower)
    (propsApi' : String → RestResult PropRec)
    (synApi' : String → RestResult (Option (List String))) :
    link propsApi' synApi' (link propsApi synApi st c).2.1 c2 =
      (some props, (link propsApi synApi st c).2.1, 0) := by
  have hlink : link propsApi synApi st c =
      (some props,
       ⟨syns.foldl (fun l s => (s.toLower, props.CID) :: l) st.synonyms,
        (props.CID, props) :: st.properties⟩, 2) := by
    unfold link
    rw [hmiss, hp, hs]
  rw [hlink]
  dsimp only
  unfold link
  have hlook : List.lookup c2.toLower
      (syns.foldl (fun l s => (s.toLower, props.CID) :: l) st.synonyms) =
      some props.CID :=
    lookup_syn_foldl props.CID syns st.synonyms c2.toLower
      (Or.inl ⟨syn, hsyn, hc2.symm⟩)
  rw [hlook]
  dsimp only
  have hprop : List.lookup props.CID ((props.CID, props) :: st.properties) =
      some props := by
    rw [List.lookup]
    simp
  rw [hprop]

theorem link_failure_no_synonyms (propsApi : String → RestResult PropRec)
    (synApi : String → RestResult (Option (List String)))
    (st : LinkerState) (c : String)
    (hwf : ∀ s cid, List.lookup s st.synonyms = some cid →
      (List.lookup cid st.properties).isSome)
    (hfail : (link propsApi synApi st c).1 = none) :
    (link propsApi synApi st c).2.1.synonyms = st.synonyms ∧
      List.lookup c.toLower st.synonyms = none := by
  rcases hlk : List.lookup c.toLower st.synonyms with _ | cid
  · refine ⟨?_, rfl⟩
    unfold link at hfail ⊢
    rw [hlk] at hfail ⊢
    rcases hpc : propsApi c with _ | p
    · rfl
    · rw [hpc] at hfail
      rcases p with _ | props
      · rfl
      · rcases hsc : synApi c with _ | q
        · rfl
        · rw [hsc] at hfail
          rcases q with _ | r
          · exact Option.noConfusion hfail
          · rcases r with _ | syns
            · exact Option.noConfusion hfail
            · exact Option.noConfusion hfail
  · exfalso
    have hsome := hwf c.toLower cid hlk
    unfold link at hfail
    rw [hlk] at hfail
    have hnone : List.lookup cid st.properties = none := hfail
    rw [hnone] at hsome
    exact Bool.noConfusion hsome

/-- Claim C8 (amended): after a successful link every synonym returned by the
database is cached lower-cased against the canonical id, so a subsequent call
with any casing of a cached synonym returns the cached record with zero
outbound queries and an unchanged state; after a "not found" or error outcome
no synonym mapping is cached, so a repeated call for the same compound issues
at least one new outbound query — but the failure may occur after the
properties request succeeded, in which case the fetched record remains in the
properties cache (see the C10 analysis). -/
theorem claim_C8_linker_cache_behaviour :
    (∀ (propsApi : String → RestResult PropRec)
       (synApi : String → RestResult (Option (List String)))
       (st : LinkerState) (c : String) (props : PropRec) (syns : List String),
       List.lookup c.toLower st.synonyms = none →
       propsApi c = .ok (some props) →
       synApi c = .ok (some (some syns)) →
       ∀ syn ∈ syns, ∀ (c2 : String), c2.toLower = syn.toLower →
       ∀ (propsApi' : String → RestResult PropRec)
         (synApi' : String → RestResult (Option (List String))),
         link propsApi' synApi' (link propsApi synApi st c).2.1 c2 =
           (some props, (link propsApi synApi st c).2.1, 0)) ∧
    (∀ (propsApi : String → RestResult PropRec)
       (synApi : String → RestResult (Option (List String)))
       (st : LinkerState) (c : String),
       (∀ s cid, List.lookup s st.synonyms = some cid →
         (List.lookup cid st.properties).isSome) →
       (link propsApi synApi st c).1 = none →
       (link propsApi synApi st c).2.1.synonyms = st.synonyms ∧
       ∀ (propsApi' : String → RestResult PropRec)
         (synApi' : String → RestResult (Option (List String))),
         1 ≤ (link propsApi' synApi' (link propsApi synApi st c).2.1 c).2.2) := by
  constructor
  · intro propsApi synApi st c props syns hmiss hp hs syn hsyn c2 hc2 propsApi' synApi'
    exact link_success_caches propsApi synApi st c props syns hmiss hp hs syn hsyn
      c2 hc2 propsApi' synApi'
  · intro propsApi synApi st c hwf hfail
    obtain ⟨hsyn, hmiss⟩ := link_failure_no_synonyms propsApi synApi st c hwf hfail
    refine ⟨hsyn, fun propsApi' synApi' => ?_⟩
    refine link_queries_pos propsApi' synApi' _ c ?_
    rw [hsyn, hmiss]

/-- Witness for claim C8 (amended): after successfully linking "ibuprofen"
with returned synonyms ["Ibuprofen", "Advil"], a lookup of the cached synonym
"Advil" returns the cached record with zero outbound queries even against an
always-failing oracle; and after a partial failure no synonym is cached and a
repeat call issues a query. -/
theorem claim_C8_linker_cache_behaviour_witness :
    link (fun _ => RestResult.httpError) (fun _ => RestResult.httpError)
        (link (fun _ => RestResult.ok (some ⟨"cid1", []⟩))
          (fun _ => RestResult.ok (some (some ["Ibuprofen", "Advil"])))
          ⟨[], []⟩ "ibuprofen").2.1 "Advil" =
      (some ⟨"cid1", []⟩,
       (link (fun _ => RestResult.ok (some ⟨"cid1", []⟩))
         (fun _ => RestResult.ok (some (some ["Ibuprofen", "Advil"])))
         ⟨[], []⟩ "ibuprofen").2.1, 0) ∧
    ((link (fun _ => RestResult.ok (some ⟨"cid1", []⟩)) (fun _ => RestResult.httpError)
        ⟨[], []⟩ "ibuprofen").2.1.synonyms = [] ∧
     1 ≤ (link (fun _ => RestResult.httpError) (fun _ => RestResult.httpError)
        (link (fun _ => RestResult.ok (some ⟨"cid1", []⟩))
          (fun _ => RestResult.httpError) ⟨[], []⟩ "ibuprofen").2.1
        "ibuprofen").2.2) :=
  ⟨claim_C8_linker_cache_behaviour.1
      (fun _ => RestResult.ok (some ⟨"cid1", []⟩))
      (fun _ => RestResult.ok (some (some ["Ibuprofen", "Advil"])))
      ⟨[], []⟩ "ibuprofen" ⟨"cid1", []⟩ ["Ibuprofen", "Advil"] rfl rfl rfl
      "Advil" (by decide) "Advil" rfl
      (fun _ => RestResult.httpError) (fun _ => RestResult.httpError),
   (claim_C8_linker_cache_behaviour.2
      (fun _ => RestResult.ok (some ⟨"cid1", []⟩))
      (fun _ => RestResult.httpError) ⟨[], []⟩ "ibuprofen"
      (fun s cid h => Option.noConfusion h) rfl).1,
   (claim_C8_linker_cache_behaviour.2
      (fun _ => RestResult.ok (some ⟨"cid1", []⟩))
      (fun _ => RestResult.httpError) ⟨[], []⟩ "ibuprofen"
      (fun s cid h => Option.noConfusion h) rfl).2
     (fun _ => RestResult.httpError) (fun _ => RestResult.httpError)⟩

/-! ## Instance tensor builder (`instance_forward`, rel_model.py lines 59-105)

Token embeddings are matrices over ℚ (`List (List ℚ)`, row = token).  The
ragged mean pooling (`reduce_mean`) and its backward pass, the
`reshape2f`-based pairing/splitting and the in-place slice accumulation of
the backprop closure are each embedded structurally. -/

/-- A matrix row. -/
abbrev Row := List ℚ

/-- A matrix, as its list of rows. -/
abbrev Mat := List Row

/-- Elementwise sum of two rows. -/
def addRow (r1 r2 : Row) : Row := List.zipWith (· + ·) r1 r2

/-- Scale a row by a rational constant. -/
def scaleRow (c : ℚ) (r : Row) : Row := r.map (c * ·)

/-- Row `i` of a matrix (out-of-range reads give the empty row; the theorems
only ever read in-range rows). -/
def rowAt (m : Mat) (i : Nat) : Row := m.getD i []

/-- Sum of a list of rows (empty sum is the empty row). -/
def sumRows : Mat → Row
  | [] => []
  | r :: rs => rs.foldl addRow r

/-- Column-wise mean of a list of rows: the thinc `reduce_mean` of one ragged
block. -/
def meanRows (rows : Mat) : Row := scaleRow (1 / (rows.length : ℚ)) (sumRows rows)

/-- One document as `instance_forward` sees it: its token-embedding matrix
(`tokvec`, one row per token) and its instance pairs (the output of
`get_instances(doc)`). -/
structure RelModelDoc where
  tokvec : Mat
  instances : List (Span × Span)

/-- Number of tokens of a span: `ent.end - ent.start`. -/
def spanLen (s : Span) : Nat := s.end_ - s.start

/-- `[i for i in range(ent.start, ent.end)]`. -/
def spanIndices (s : Span) : List Nat := List.range' s.start (spanLen s)

/-- The spans of a document's instances in iteration order: `for instance in
instances: for ent in instance` (head then tail). -/
def docSpans (insts : List (Span × Span)) : List Span :=
  insts.flatMap fun p => [p.1, p.2]

/-- The `token_indices` list of one document. -/
def docTokenIndices (insts : List (Span × Span)) : List Nat :=
  (docSpans insts).flatMap spanIndices

/-- `tokvec[token_indices]` for one document. -/
def docEnts (tv : Mat) (insts : List (Span × Span)) : Mat :=
  (docTokenIndices insts).map (rowAt tv)

/-- The `lengths` recorded for one document (`ent.end - ent.start` per span in
iteration order). -/
def docLengths (insts : List (Span × Span)) : List Nat :=
  (docSpans insts).map spanLen

/-- `model.ops.flatten(ents)`: all extracted rows across the batch. -/
def batchEnts (docs : List RelModelDoc) : Mat :=
  docs.flatMap fun d => docEnts d.tokvec d.instances

/-- The batch-wide ragged lengths. -/
def batchLengths (docs : List RelModelDoc) : List Nat :=
  docs.flatMap fun d => docLengths d.instances

/-- Split a flat matrix into consecutive blocks of the given lengths (the
ragged structure of `Ragged(data, lengths)`). -/
def splitByLengths : Mat → List Nat → List Mat
  | _, [] => []
  | m, l :: ls => m.take l :: splitByLengths (m.drop l) ls

/-- thinc `reduce_mean` over a ragged array: one mean row per block. -/
def reduce_mean (m : Mat) (ls : List Nat) : Mat :=
  (splitByLengths m ls).map meanRows

/-- `model.ops.reshape2f(pooled, -1, pooled.shape[1] * 2)`: concatenate
consecutive row pairs. -/
def pairConcat : Mat → Mat
  | a :: b :: rest => (a ++ b) :: pairConcat rest
  | _ => []

/-- Faithful embedding of the forward pass of `instance_forward`
(rel_model.py, lines 59-83): extract the token rows of every span of every
instance pair, mean-pool them raggedly, and concatenate pooled row pairs. -/
def instance_forward (docs : List RelModelDoc) : Mat :=
  pairConcat (reduce_mean (batchEnts docs) (batchLengths docs))

/-- Mean-pooled vector of one span. -/
def meanPool (tv : Mat) (s : Span) : Row :=
  meanRows ((spanIndices s).map (rowAt tv))

/-- The epsilon guard `0.00000000001` of the backward pass. -/
def eps : ℚ := 1 / 100000000000

/-- `model.ops.reshape2f(d_relations, d_relations.shape[0] * 2, -1)`: split
every width-`2*hd` row into its head half and tail half. -/
def splitPairs (hd : Nat) (d_relations : Mat) : Mat :=
  d_relations.flatMap fun r => [r.take hd, r.drop hd]

/-- `bp_pooled`: the backward of ragged `reduce_mean` distributes each pooled
gradient row divided by the block length to every row of its block. -/
def unpooledRows (d_pooled : Mat) (ls : List Nat) : Mat :=
  (d_pooled.zip ls).flatMap fun rl =>
    List.replicate rl.2 (scaleRow (1 / (rl.2 : ℚ)) rl.1)

/-- `d_tokvec[ent.start : ent.end] += row` (numpy slice-assignment with
broadcasting; rows beyond the matrix are clipped, as numpy does). -/
def addToSliceAux : Mat → Nat → Nat → Nat → Row → Mat
  | [], _, _, _, _ => []
  | row :: rest, i, s, e, r =>
      (if s ≤ i ∧ i < e then addRow row r else row) :: addToSliceAux rest (i + 1) s e r

def addToSlice (m : Mat) (s e : Nat) (r : Row) : Mat := addToSliceAux m 0 s e r

/-- `count_occ[ent.start : ent.end] += 1` (per token; the code's 2-D count
matrix is constant along the feature axis, so one scalar per token represents
it exactly). -/
def bumpSliceAux : List ℚ → Nat → Nat → Nat → List ℚ
  | [], _, _, _ => []
  | c :: rest, i, s, e =>
      (if s ≤ i ∧ i < e then c + 1 else c) :: bumpSliceAux rest (i + 1) s e

def bumpSlice (cnt : List ℚ) (s e : Nat) : List ℚ := bumpSliceAux cnt 0 s e

/-- The inner loop of `backprop` for one document: for every span of every
instance, add `d_ents[ent_index]` to the token rows of the span, bump the
per-token count, and advance `ent_index` by the span length. -/
def applyEnts (d_ents : Mat) : List Span → Nat → Mat → List ℚ → Mat × List ℚ × Nat
  | [], entIdx, dtv, cnt => (dtv, cnt, entIdx)
  | s :: rest, entIdx, dtv, cnt =>
      applyEnts d_ents rest (entIdx + spanLen s)
        (addToSlice dtv s.start s.end_ (d_ents.getD entIdx []))
        (bumpSlice cnt s.start s.end_)

/-- `d_tokvec /= count_occ + 0.00000000001`. -/
def divideRows (dtv : Mat) (cnt : List ℚ) : Mat :=
  List.zipWith (fun row c => row.map (· / (c + eps))) dtv cnt

/-- The per-document loop of `backprop`, threading the global `ent_index`. -/
def backAux (d_ents : Mat) (hd : Nat) : List RelModelDoc → Nat → List Mat
  | [], _ => []
  | d :: rest, entIdx =>
      let res := applyEnts d_ents (docSpans d.instances) entIdx
        (List.replicate d.tokvec.length (List.replicate hd 0))
        (List.replicate d.tokvec.length 0)
      divideRows res.1 res.2.1 :: backAux d_ents hd rest res.2.2

/-- Faithful embedding of the `backprop` closure of `instance_forward`
(rel_model.py, lines 85-103): split the relation gradients into per-span
pooled gradients, un-pool them through the mean-pooling backward, and
accumulate them per document with the per-token occurrence count and the
epsilon-guarded division.  `hd` is the hidden width (`pooled.shape[1]`). -/
def backprop (hd : Nat) (docs : List RelModelDoc) (d_relations : Mat) : List Mat :=
  backAux (unpooledRows (splitPairs hd d_relations) (batchLengths docs)) hd docs 0

/-- The specified gradient of token `i` of a document: the sum of the
un-pooled contributions (pooled gradient divided by span length) of every span
occurrence containing the token, divided by (number of contributing
occurrences + epsilon).  `spanGrads` pairs each span occurrence of the
document with its pooled gradient row. -/
def specTokenGrad (hd : Nat) (spanGrads : List (Span × Row)) (i : Nat) : Row :=
  let contribs := (spanGrads.filter fun sr => sr.1.start ≤ i ∧ i < sr.1.end_).map
    fun sr => scaleRow (1 / (spanLen sr.1 : ℚ)) sr.2
  scaleRow (1 / ((contribs.length : ℚ) + eps)) (contribs.foldl addRow (List.replicate hd 0))

theorem splitByLengths_prefix {α : Type} (g : α → Mat) :
    ∀ (l : List α) (m : Mat) (ls : List Nat),
      splitByLengths (l.flatMap g ++ m) ((l.map fun a => (g a).length) ++ ls) =
        l.map g ++ splitByLengths m ls := by
  intro l
  induction l with
  | nil => intro m ls; simp
  | cons a rest ih =>
      intro m ls
      simp only [List.flatMap_cons, List.map_cons, List.cons_append, List.append_assoc]
      rw [splitByLengths, List.take_left, List.drop_left, ih]

theorem docEnts_flatMap (tv : Mat) (insts : List (Span × Span)) :
    docEnts tv insts = (docSpans insts).flatMap fun s => (spanIndices s).map (rowAt tv) := by
  unfold docEnts docTokenIndices
  rw [List.map_flatMap]

theorem docLengths_eq_blocks (tv : Mat) (insts : List (Span × Span)) :
    docLengths insts =
      (docSpans insts).map fun s => ((spanIndices s).map (rowAt tv)).length := by
  unfold docLengths
  refine List.map_congr_left fun s _ => ?_
  rw [List.length_map]
  unfold spanIndices
  rw [List.length_range']

theorem splitByLengths_batch (docs : List RelModelDoc) :
    splitByLengths (batchEnts docs) (batchLengths docs) =
      docs.flatMap fun d => (docSpans d.instances).map fun s =>
        (spanIndices s).map (rowAt d.tokvec) := by
  induction docs with
  | nil => rfl
  | cons d rest ih =>
      unfold batchEnts batchLengths at ih ⊢
      rw [List.flatMap_cons, List.flatMap_cons, List.flatMap_cons,
        docEnts_flatMap, docLengths_eq_blocks d.tokvec, splitByLengths_prefix, ih]

theorem reduce_mean_batch (docs : List RelModelDoc) :
    reduce_mean (batchEnts docs) (batchLengths docs) =
      docs.flatMap fun d => (docSpans d.instances).map (meanPool d.tokvec) := by
  unfold reduce_mean
  rw [splitByLengths_batch, List.map_flatMap]
  simp only [List.map_map]
  rfl

theorem docSpans_length (insts : List (Span × Span)) :
    (docSpans insts).length = 2 * insts.length := by
  induction insts with
  | nil => rfl
  | cons p rest ih =>
      unfold docSpans at ih ⊢
      rw [List.flatMap_cons, List.length_append, ih, List.length_cons]
      simp
      omega

theorem pairConcat_append :
    ∀ (xs : Mat), xs.length % 2 = 0 → ∀ (ys : Mat),
      pairConcat (xs ++ ys) = pairConcat xs ++ pairConcat ys := by
  intro xs
  induction xs using pairConcat.induct with
  | case1 a b rest ih =>
      intro h ys
      rw [List.cons_append, List.cons_append, pairConcat, pairConcat,
        ih (by simp only [List.length_cons] at h; omega) ys, List.cons_append]
  | case2 m h2 =>
      rcases m with _ | ⟨a, rest⟩
      · intro _ ys
        simp [pairConcat]
      · rcases rest with _ | ⟨b, rest'⟩
        · intro h
          simp at h
        · exact absurd rfl (h2 a b rest')

theorem pairConcat_pairs (f : Span → Row) :
    ∀ (insts : List (Span × Span)),
      pairConcat (insts.flatMap fun p => [f p.1, f p.2]) =
        insts.map fun p => f p.1 ++ f p.2 := by
  intro insts
  induction insts with
  | nil => rfl
  | cons p rest ih =>
      rw [List.flatMap_cons, List.cons_append, List.cons_append, List.nil_append,
        pairConcat, ih, List.map_cons]

/-- Claim C5: the forward output of the instance tensor builder is exactly one
row per instance pair, document-major, in the pair generator's order, each row
the concatenation of the pooled head and pooled tail vectors; a document with
zero pairs contributes zero rows. -/
theorem claim_C5_forward_rows (docs : List RelModelDoc) :
    instance_forward docs =
      docs.flatMap fun d => d.instances.map fun p =>
        meanPool d.tokvec p.1 ++ meanPool d.tokvec p.2 := by
  unfold instance_forward
  rw [reduce_mean_batch]
  induction docs with
  | nil => rfl
  | cons d rest ih =>
      rw [List.flatMap_cons, List.flatMap_cons,
        pairConcat_append _ (by rw [List.length_map, docSpans_length]; omega), ih]
      congr 1
      have hspans : (docSpans d.instances).map (meanPool d.tokvec) =
          d.instances.flatMap fun p => [meanPool d.tokvec p.1, meanPool d.tokvec p.2] := by
        unfold docSpans
        rw [List.map_flatMap]
        rfl
      rw [hspans, pairConcat_pairs]

theorem addToSliceAux_length :
    ∀ (m : Mat) (i s e : Nat) (r : Row), (addToSliceAux m i s e r).length = m.length := by
  intro m
  induction m with
  | nil => intro i s e r; rfl
  | cons row rest ih =>
      intro i s e r
      rw [addToSliceAux, List.length_cons, List.length_cons, ih]

theorem bumpSliceAux_length :
    ∀ (cnt : List ℚ) (i s e : Nat), (bumpSliceAux cnt i s e).length = cnt.length := by
  intro cnt
  induction cnt with
  | nil => intro i s e; rfl
  | cons c rest ih =>
      intro i s e
      rw [bumpSliceAux, List.length_cons, List.length_cons, ih]

theorem addToSliceAux_getD :
    ∀ (m : Mat) (i0 s e : Nat) (r : Row) (j : Nat),
      (addToSliceAux m i0 s e r).getD j [] =
        if s ≤ i0 + j ∧ i0 + j < e ∧ j < m.length then addRow (m.getD j []) r
        else m.getD j [] := by
  intro m
  induction m with
  | nil =>
      intro i0 s e r j
      rw [addToSliceAux, if_neg (by simp)]
  | cons row rest ih =>
      intro i0 s e r j
      cases j with
      | zero =>
          rw [addToSliceAux, List.getD_cons_zero, List.getD_cons_zero]
          by_cases hc : s ≤ i0 ∧ i0 < e
          · rw [if_pos hc, if_pos ⟨by omega, by omega, by simp⟩]
          · rw [if_neg hc, if_neg (fun h => hc ⟨by omega, by omega⟩)]
      | succ j =>
          rw [addToSliceAux, List.getD_cons_succ, List.getD_cons_succ, ih]
          refine if_congr ?_ rfl rfl
          constructor
          · rintro ⟨h1, h2, h3⟩
            exact ⟨by omega, by omega, by simp only [List.length_cons]; omega⟩
          · rintro ⟨h1, h2, h3⟩
            refine ⟨by omega, by omega, ?_⟩
            simp only [List.length_cons] at h3
            omega

theorem bumpSliceAux_getD :
    ∀ (cnt : List ℚ) (i0 s e : Nat) (j : Nat),
      (bumpSliceAux cnt i0 s e).getD j 0 =
        if s ≤ i0 + j ∧ i0 + j < e ∧ j < cnt.length then cnt.getD j 0 + 1
        else cnt.getD j 0 := by
  intro cnt
  induction cnt with
  | nil =>
      intro i0 s e j
      rw [bumpSliceAux, if_neg (by simp)]
  | cons c rest ih =>
      intro i0 s e j
      cases j with
      | zero =>
          rw [bumpSliceAux, List.getD_cons_zero, List.getD_cons_zero]
          by_cases hc : s ≤ i0 ∧ i0 < e
          · rw [if_pos hc, if_pos ⟨by omega, by omega, by simp⟩]
          · rw [if_neg hc, if_neg (fun h => hc ⟨by omega, by omega⟩)]
      | succ j =>
          rw [bumpSliceAux, List.getD_cons_succ, List.getD_cons_succ, ih]
          refine if_congr ?_ rfl rfl
          constructor
          · rintro ⟨h1, h2, h3⟩
            exact ⟨by omega, by omega, by simp only [List.length_cons]; omega⟩
          · rintro ⟨h1, h2, h3⟩
            refine ⟨by omega, by omega, ?_⟩
            simp only [List.length_cons] at h3
            omega

theorem foldl_addToSlice_length (f : Span × Row → Row) :
    ∀ (sr : List (Span × Row)) (dtv : Mat),
      (sr.foldl (fun m q => addToSlice m q.1.start q.1.end_ (f q)) dtv).length =
        dtv.length := by
  intro sr
  induction sr with
  | nil => intro dtv; rfl
  | cons q rest ih =>
      intro dtv
      rw [List.foldl_cons, ih]
      exact addToSliceAux_length dtv 0 q.1.start q.1.end_ (f q)

theorem foldl_bumpSlice_length :
    ∀ (sr : List (Span × Row)) (cnt : List ℚ),
      (sr.foldl (fun c q => bumpSlice c q.1.start q.1.end_) cnt).length =
        cnt.length := by
  intro sr
  induction sr with
  | nil => intro cnt; rfl
  | cons q rest ih =>
      intro cnt
      rw [List.foldl_cons, ih]
      exact bumpSliceAux_length cnt 0 q.1.start q.1.end_

theorem foldl_addToSlice_getD (f : Span × Row → Row) :
    ∀ (sr : List (Span × Row)) (dtv : Mat) (i : Nat), i < dtv.length →
      (sr.foldl (fun m q => addToSlice m q.1.start q.1.end_ (f q)) dtv).getD i [] =
        ((sr.filter fun q => decide (q.1.start ≤ i ∧ i < q.1.end_)).map f).foldl addRow
          (dtv.getD i []) := by
  intro sr
  induction sr with
  | nil => intro dtv i hi; rfl
  | cons q rest ih =>
      intro dtv i hi
      rw [List.foldl_cons, List.filter_cons]
      have hstep : (addToSlice dtv q.1.start q.1.end_ (f q)).getD i [] =
          if q.1.start ≤ i ∧ i < q.1.end_ then addRow (dtv.getD i []) (f q)
          else dtv.getD i [] := by
        unfold addToSlice
        rw [addToSliceAux_getD]
        by_cases hc : q.1.start ≤ i ∧ i < q.1.end_
        · rw [if_pos ⟨by omega, by omega, hi⟩, if_pos hc]
        · rw [if_neg (fun h => hc ⟨by omega, by omega⟩), if_neg hc]
      have hlen : i < (addToSlice dtv q.1.start q.1.end_ (f q)).length := by
        unfold addToSlice
        rw [addToSliceAux_length]
        exact hi
      by_cases hc : q.1.start ≤ i ∧ i < q.1.end_
      · rw [if_pos (by simpa using hc), List.map_cons, List.foldl_cons,
          ih _ i hlen, hstep, if_pos hc]
      · rw [if_neg (by simpa using hc), ih _ i hlen, hstep, if_neg hc]

theorem foldl_bumpSlice_getD :
    ∀ (sr : List (Span × Row)) (cnt : List ℚ) (i : Nat), i < cnt.length →
      (sr.foldl (fun c q => bumpSlice c q.1.start q.1.end_) cnt).getD i 0 =
        cnt.getD i 0 +
          (((sr.filter fun q => decide (q.1.start ≤ i ∧ i < q.1.end_)).length : ℚ)) := by
  intro sr
  induction sr with
  | nil => intro cnt i hi; simp
  | cons q rest ih =>
      intro cnt i hi
      rw [List.foldl_cons, List.filter_cons]
      have hstep : (bumpSlice cnt q.1.start q.1.end_).getD i 0 =
          if q.1.start ≤ i ∧ i < q.1.end_ then cnt.getD i 0 + 1 else cnt.getD i 0 := by
        unfold bumpSlice
        rw [bumpSliceAux_getD]
        by_cases hc : q.1.start ≤ i ∧ i < q.1.end_
        · rw [if_pos ⟨by omega, by omega, hi⟩, if_pos hc]
        · rw [if_neg (fun h => hc ⟨by omega, by omega⟩), if_neg hc]
      have hlen : i < (bumpSlice cnt q.1.start q.1.end_).length := by
        unfold bumpSlice
        rw [bumpSliceAux_length]
        exact hi
      by_cases hc : q.1.start ≤ i ∧ i < q.1.end_
      · rw [if_pos (by simpa using hc), ih _ i hlen, hstep, if_pos hc,
          List.length_cons]
        push_cast
        ring
      · rw [if_neg (by simpa using hc), ih _ i hlen, hstep, if_neg hc]

theorem applyEnts_entIdx (d_ents : Mat) :
    ∀ (spans : List Span) (entIdx : Nat) (dtv : Mat) (cnt : List ℚ),
      (applyEnts d_ents spans entIdx dtv cnt).2.2 =
        entIdx + (spans.map spanLen).sum := by
  intro spans
  induction spans with
  | nil => intro entIdx dtv cnt; simp [applyEnts]
  | cons s rest ih =>
      intro entIdx dtv cnt
      rw [applyEnts, ih, List.map_cons, List.sum_cons]
      omega

/-- The block of un-pooled gradient rows one span occurrence contributes to
`d_ents`: its pooled gradient row divided by its length, once per token. -/
def entBlock (q : Span × Row) : Mat :=
  List.replicate (spanLen q.1) (scaleRow (1 / (spanLen q.1 : ℚ)) q.2)

theorem applyEnts_spec (d_ents : Mat) :
    ∀ (sr : List (Span × Row)) (pre post : Mat) (dtv : Mat) (cnt : List ℚ),
      d_ents = pre ++ sr.flatMap entBlock ++ post →
      (∀ q ∈ sr, 0 < spanLen q.1) →
      applyEnts d_ents (sr.map Prod.fst) pre.length dtv cnt =
        (sr.foldl
          (fun m q => addToSlice m q.1.start q.1.end_ (scaleRow (1 / (spanLen q.1 : ℚ)) q.2))
          dtv,
         sr.foldl (fun c q => bumpSlice c q.1.start q.1.end_) cnt,
         pre.length + (sr.map fun q => spanLen q.1).sum) := by
  intro sr
  induction sr with
  | nil =>
      intro pre post dtv cnt h hpos
      simp [applyEnts]
  | cons q rest ih =>
      intro pre post dtv cnt h hpos
      rw [List.map_cons, applyEnts]
      have h0 : 0 < spanLen q.1 := hpos q (List.mem_cons_self q rest)
      have hget : d_ents.getD pre.length [] = scaleRow (1 / (spanLen q.1 : ℚ)) q.2 := by
        rw [h, List.getD_append _ _ _ _ (by
          rw [List.length_append, List.flatMap_cons, List.length_append]
          have : 0 < (entBlock q).length := by
            unfold entBlock
            rw [List.length_replicate]
            exact h0
          omega),
          List.getD_append_right _ _ _ _ (Nat.le_refl pre.length), Nat.sub_self,
          List.flatMap_cons]
        unfold entBlock
        rcases hsl : spanLen q.1 with _ | n
        · omega
        · rw [List.replicate_succ, List.cons_append, List.getD_cons_zero]
      have hd : d_ents = (pre ++ entBlock q) ++ rest.flatMap entBlock ++ post := by
        rw [h, List.flatMap_cons]
        simp only [List.append_assoc]
      have hpre' : (pre ++ entBlock q).length = pre.length + spanLen q.1 := by
        rw [List.length_append]
        unfold entBlock
        rw [List.length_replicate]
      have hrec := ih (pre ++ entBlock q) post
        (addToSlice dtv q.1.start q.1.end_ (d_ents.getD pre.length []))
        (bumpSlice cnt q.1.start q.1.end_) hd
        (fun q' hq' => hpos q' (List.mem_cons_of_mem q hq'))
      rw [hpre'] at hrec
      rw [hrec, hget, List.foldl_cons, List.foldl_cons, List.map_cons, List.sum_cons]
      refine congrArg _ (congrArg _ ?_)
      omega

/-- All span occurrences of a batch, document-major. -/
def batchSpans (docs : List RelModelDoc) : List Span :=
  docs.flatMap fun d => docSpans d.instances

/-- Total number of un-pooled gradient rows contributed by a list of
documents. -/
def sumLens (docs : List RelModelDoc) : Nat :=
  (docs.map fun d => (docLengths d.instances).sum).sum

theorem batchLengths_eq (docs : List RelModelDoc) :
    batchLengths docs = (batchSpans docs).map spanLen := by
  unfold batchLengths batchSpans docLengths
  rw [List.map_flatMap]

theorem splitPairs_length (hd : Nat) :
    ∀ (m : Mat), (splitPairs hd m).length = 2 * m.length := by
  intro m
  induction m with
  | nil => rfl
  | cons r rest ih =>
      unfold splitPairs at ih ⊢
      rw [List.flatMap_cons, List.length_append, ih, List.length_cons]
      simp
      omega

theorem batchSpans_length (docs : List RelModelDoc) :
    (batchSpans docs).length = 2 * (docs.map fun d => d.instances.length).sum := by
  induction docs with
  | nil => rfl
  | cons d rest ih =>
      unfold batchSpans at ih ⊢
      rw [List.flatMap_cons, List.length_append, ih, docSpans_length,
        List.map_cons, List.sum_cons]
      omega

theorem sum_map_flatMap {α β : Type} (f : β → Nat) (g : α → List β) :
    ∀ (l : List α), ((l.flatMap g).map f).sum = (l.map fun a => ((g a).map f).sum).sum := by
  intro l
  induction l with
  | nil => rfl
  | cons a rest ih =>
      rw [List.flatMap_cons, List.map_append, List.sum_append, ih, List.map_cons,
        List.sum_cons]

theorem getD_replicate_row (n : Nat) (r : Row) (i : Nat) (hi : i < n) :
    (List.replicate n r).getD i [] = r := by
  induction n generalizing i with
  | zero => omega
  | succ m ih =>
      cases i with
      | zero => rw [List.replicate_succ, List.getD_cons_zero]
      | succ j =>
          rw [List.replicate_succ, List.getD_cons_succ]
          exact ih j (by omega)

theorem getD_replicate_cnt (n : Nat) (i : Nat) (hi : i < n) :
    (List.replicate n (0 : ℚ)).getD i 0 = 0 := by
  induction n generalizing i with
  | zero => omega
  | succ m ih =>
      cases i with
      | zero => rw [List.replicate_succ, List.getD_cons_zero]
      | succ j =>
          rw [List.replicate_succ, List.getD_cons_succ]
          exact ih j (by omega)

theorem divideRows_getD :
    ∀ (dtv : Mat) (cnt : List ℚ) (i : Nat), i < dtv.length → i < cnt.length →
      (divideRows dtv cnt).getD i [] =
        (dtv.getD i []).map (· / (cnt.getD i 0 + eps)) := by
  intro dtv
  induction dtv with
  | nil => intro cnt i h1 h2; simp at h1
  | cons r rest ih =>
      intro cnt i h1 h2
      cases cnt with
      | nil => simp at h2
      | cons c crest =>
          cases i with
          | zero => rfl
          | succ j =>
              unfold divideRows at ih ⊢
              rw [List.zipWith_cons_cons, List.getD_cons_succ, List.getD_cons_succ,
                List.getD_cons_succ]
              exact ih crest j (by simp only [List.length_cons] at h1; omega)
                (by simp only [List.length_cons] at h2; omega)

theorem unpooledRows_zip :
    ∀ (spans : List Span) (rows : Mat),
      unpooledRows rows (spans.map spanLen) = (spans.zip rows).flatMap entBlock := by
  intro spans
  induction spans with
  | nil => intro rows; cases rows <;> rfl
  | cons s srest ih =>
      intro rows
      cases rows with
      | nil => rfl
      | cons r rrest =>
          rw [List.map_cons]
          show ((r :: rrest).zip (spanLen s :: srest.map spanLen)).flatMap _ = _
          rw [List.zip_cons_cons, List.flatMap_cons, List.zip_cons_cons,
            List.flatMap_cons]
          congr 1
          exact ih rrest

theorem backAux_getD_middle (d_ents : Mat) (hd : Nat) (dk : RelModelDoc)
    (docsPost : List RelModelDoc) :
    ∀ (docsPre : List RelModelDoc) (entIdx : Nat),
      (backAux d_ents hd (docsPre ++ dk :: docsPost) entIdx).getD docsPre.length [] =
        (fun res => divideRows res.1 res.2.1)
          (applyEnts d_ents (docSpans dk.instances) (entIdx + sumLens docsPre)
            (List.replicate dk.tokvec.length (List.replicate hd 0))
            (List.replicate dk.tokvec.length 0)) := by
  intro docsPre
  induction docsPre with
  | nil =>
      intro entIdx
      rw [List.nil_append, backAux]
      dsimp only
      rw [List.length_nil, List.getD_cons_zero]
      have h0 : sumLens [] = 0 := rfl
      rw [h0, Nat.add_zero]
  | cons d ds ih =>
      intro entIdx
      rw [List.cons_append, backAux]
      dsimp only
      rw [List.length_cons, List.getD_cons_succ, ih, applyEnts_entIdx]
      have harith : entIdx + ((docSpans d.instances).map spanLen).sum + sumLens ds =
          entIdx + sumLens (d :: ds) := by
        unfold sumLens docLengths
        rw [List.map_cons, List.sum_cons]
        omega
      rw [harith]

theorem applyEnts_spec' (d_ents : Mat) (sr : List (Span × Row)) (spans : List Span)
    (entIdx : Nat) (pre post : Mat) (dtv : Mat) (cnt : List ℚ)
    (hspans : spans = sr.map Prod.fst) (hidx : entIdx = pre.length)
    (h : d_ents = pre ++ sr.flatMap entBlock ++ post)
    (hpos : ∀ q ∈ sr, 0 < spanLen q.1) :
    applyEnts d_ents spans entIdx dtv cnt =
      (sr.foldl
        (fun m q => addToSlice m q.1.start q.1.end_ (scaleRow (1 / (spanLen q.1 : ℚ)) q.2))
        dtv,
       sr.foldl (fun c q => bumpSlice c q.1.start q.1.end_) cnt,
       pre.length + (sr.map fun q => spanLen q.1).sum) := by
  subst hspans
  subst hidx
  exact applyEnts_spec d_ents sr pre post dtv cnt h hpos

theorem map_div_eq_scale (r : Row) (D : ℚ) :
    r.map (fun x => x / D) = scaleRow (1 / D) r := by
  unfold scaleRow
  refine List.map_congr_left fun x _ => ?_
  rw [one_div]
  exact (inv_mul_eq_div D x).symm

theorem mem_docSpans_pos (insts : List (Span × Span))
    (hpos : ∀ p ∈ insts, 0 < spanLen p.1 ∧ 0 < spanLen p.2) :
    ∀ s ∈ docSpans insts, 0 < spanLen s := by
  intro s hs
  unfold docSpans at hs
  obtain ⟨p, hp, hmem⟩ := List.mem_flatMap.mp hs
  have : s = p.1 ∨ s = p.2 := by simpa using hmem
  rcases this with rfl | rfl
  · exact (hpos p hp).1
  · exact (hpos p hp).2

/-- Claim C4: in the backward pass, the gradient row of token `i` of a
document equals the sum of the un-pooled contributions (pooled gradient over
span length) of every span occurrence containing the token, divided by the
number of contributing occurrences plus the epsilon guard; a token covered by
no occurrence gets exactly the zero row.  The document under scrutiny is
`dk`, placed arbitrarily in the batch (`docsPre ++ dk :: docsPost`), with the
relation-gradient rows decomposed document-major
(`relPre ++ relK ++ relPost`). -/
theorem claim_C4_backward_mean_of_contributions (hd : Nat)
    (docsPre docsPost : List RelModelDoc) (dk : RelModelDoc)
    (relPre relK relPost : Mat)
    (hlenPre : relPre.length = (docsPre.map fun d => d.instances.length).sum)
    (hlenK : relK.length = dk.instances.length)
    (hpos : ∀ p ∈ dk.instances, 0 < spanLen p.1 ∧ 0 < spanLen p.2)
    (i : Nat) (hi : i < dk.tokvec.length) :
    rowAt ((backprop hd (docsPre ++ dk :: docsPost) (relPre ++ relK ++ relPost)).getD
        docsPre.length []) i =
      specTokenGrad hd ((docSpans dk.instances).zip (splitPairs hd relK)) i ∧
    ((∀ s ∈ docSpans dk.instances, ¬ (s.start ≤ i ∧ i < s.end_)) →
      rowAt ((backprop hd (docsPre ++ dk :: docsPost) (relPre ++ relK ++ relPost)).getD
          docsPre.length []) i = List.replicate hd 0) := by
  have hlen1 : (batchSpans docsPre).length = (splitPairs hd relPre).length := by
    rw [batchSpans_length, splitPairs_length, hlenPre]
  have hlen2 : (docSpans dk.instances).length = (splitPairs hd relK).length := by
    rw [docSpans_length, splitPairs_length, hlenK]
  have hbs : batchSpans (docsPre ++ dk :: docsPost) =
      batchSpans docsPre ++ (docSpans dk.instances ++ batchSpans docsPost) := by
    unfold batchSpans
    rw [List.flatMap_append, List.flatMap_cons]
  have hsp : splitPairs hd (relPre ++ relK ++ relPost) =
      splitPairs hd relPre ++ (splitPairs hd relK ++ splitPairs hd relPost) := by
    unfold splitPairs
    rw [List.flatMap_append, List.flatMap_append, List.append_assoc]
  have hde : unpooledRows (splitPairs hd (relPre ++ relK ++ relPost))
      (batchLengths (docsPre ++ dk :: docsPost)) =
      ((batchSpans docsPre).zip (splitPairs hd relPre)).flatMap entBlock ++
        (((docSpans dk.instances).zip (splitPairs hd relK)).flatMap entBlock ++
          ((batchSpans docsPost).zip (splitPairs hd relPost)).flatMap entBlock) := by
    rw [batchLengths_eq, hbs, hsp, unpooledRows_zip, List.zip_append hlen1,
      List.zip_append hlen2, List.flatMap_append, List.flatMap_append]
  have hpreLen : (((batchSpans docsPre).zip (splitPairs hd relPre)).flatMap
      entBlock).length = sumLens docsPre := by
    rw [List.length_flatMap]
    have h1 : List.map (List.length ∘ entBlock)
        ((batchSpans docsPre).zip (splitPairs hd relPre)) =
        List.map (fun q : Span × Row => spanLen q.1)
          ((batchSpans docsPre).zip (splitPairs hd relPre)) := by
      refine List.map_congr_left fun q _ => ?_
      unfold entBlock
      simp
    have h2 : List.map (fun q : Span × Row => spanLen q.1)
        ((batchSpans docsPre).zip (splitPairs hd relPre)) =
        List.map spanLen (List.map Prod.fst
          ((batchSpans docsPre).zip (splitPairs hd relPre))) := by
      rw [List.map_map]
      rfl
    rw [h1, h2, List.map_fst_zip _ _ (le_of_eq hlen1)]
    unfold sumLens docLengths batchSpans
    exact sum_map_flatMap spanLen _ docsPre
  have hfst : ((docSpans dk.instances).zip (splitPairs hd relK)).map Prod.fst =
      docSpans dk.instances := List.map_fst_zip _ _ (le_of_eq hlen2)
  have hpos' : ∀ q ∈ (docSpans dk.instances).zip (splitPairs hd relK),
      0 < spanLen q.1 := by
    rintro ⟨s, r⟩ hq
    exact mem_docSpans_pos dk.instances hpos s (List.mem_zip hq).1
  have happ := applyEnts_spec'
    (((batchSpans docsPre).zip (splitPairs hd relPre)).flatMap entBlock ++
      (((docSpans dk.instances).zip (splitPairs hd relK)).flatMap entBlock ++
        ((batchSpans docsPost).zip (splitPairs hd relPost)).flatMap entBlock))
    ((docSpans dk.instances).zip (splitPairs hd relK))
    (docSpans dk.instances) (sumLens docsPre)
    (((batchSpans docsPre).zip (splitPairs hd relPre)).flatMap entBlock)
    (((batchSpans docsPost).zip (splitPairs hd relPost)).flatMap entBlock)
    (List.replicate dk.tokvec.length (List.replicate hd 0))
    (List.replicate dk.tokvec.length 0)
    hfst.symm hpreLen.symm (List.append_assoc _ _ _).symm hpos'
  have hmain : rowAt ((backprop hd (docsPre ++ dk :: docsPost)
      (relPre ++ relK ++ relPost)).getD docsPre.length []) i =
      specTokenGrad hd ((docSpans dk.instances).zip (splitPairs hd relK)) i := by
    unfold backprop rowAt
    rw [backAux_getD_middle]
    dsimp only
    rw [hde, Nat.zero_add, happ]
    dsimp only
    have hlenA : ((((docSpans dk.instances).zip (splitPairs hd relK)).foldl
        (fun m q => addToSlice m q.1.start q.1.end_
          (scaleRow (1 / (spanLen q.1 : ℚ)) q.2))
        (List.replicate dk.tokvec.length (List.replicate hd 0)))).length =
        dk.tokvec.length := by
      rw [foldl_addToSlice_length, List.length_replicate]
    have hlenB : ((((docSpans dk.instances).zip (splitPairs hd relK)).foldl
        (fun c q => bumpSlice c q.1.start q.1.end_)
        (List.replicate dk.tokvec.length (0 : ℚ)))).length = dk.tokvec.length := by
      rw [foldl_bumpSlice_length, List.length_replicate]
    rw [divideRows_getD _ _ i (by rw [hlenA]; exact hi) (by rw [hlenB]; exact hi)]
    rw [foldl_addToSlice_getD (fun q => scaleRow (1 / (spanLen q.1 : ℚ)) q.2) _ _ i
      (by rw [List.length_replicate]; exact hi)]
    rw [foldl_bumpSlice_getD _ _ i (by rw [List.length_replicate]; exact hi)]
    rw [getD_replicate_row dk.tokvec.length _ i hi, getD_replicate_cnt dk.tokvec.length i hi,
      zero_add, map_div_eq_scale]
    unfold specTokenGrad
    dsimp only
    rw [List.length_map]
  refine ⟨hmain, fun hz => ?_⟩
  rw [hmain]
  unfold specTokenGrad
  have hfil : ((docSpans dk.instances).zip (splitPairs hd relK)).filter
      (fun sr => decide (sr.1.start ≤ i ∧ i < sr.1.end_)) = [] := by
    rw [List.filter_eq_nil]
    rintro ⟨s, r⟩ hq
    simpa using hz s (List.mem_zip hq).1
  rw [hfil]
  dsimp only [List.map_nil, List.foldl_nil, List.length_nil]
  unfold scaleRow
  rw [List.map_replicate, mul_zero]

/-- The spec's §8 round-trip scenario: one document, four tokens with
hidden width 1, one instance pair whose head is the 3-token span `[0, 3)` and
whose tail is the 1-token span `[3, 4)`, so the 3-token span is the only
contributor to tokens 0-2. -/
def c7doc : RelModelDoc := ⟨[[1], [2], [3], [6]], [(⟨0, 3, "", ""⟩, ⟨3, 4, "", ""⟩)]⟩

/-- Counterexample to claim C7: back-propagating an all-ones gradient through
the round trip does not assign exactly 1/3 to the 3 tokens — the epsilon
guard in the divisor makes each of them (1/3)/(1 + 10⁻¹¹)
= 100000000000/300000000003. -/
theorem claim_C7_counterexample :
    rowAt ((backprop 1 [c7doc] [[(1 : ℚ), 1]]).getD 0 []) 0 ≠ [(1 : ℚ)/3] ∧
    rowAt ((backprop 1 [c7doc] [[(1 : ℚ), 1]]).getD 0 []) 0 =
      [(100000000000 : ℚ)/300000000003] := by
  constructor
  · norm_num [backprop, backAux, unpooledRows, splitPairs, batchLengths, docLengths,
      docSpans, spanLen, applyEnts, addToSlice, addToSliceAux, bumpSlice, bumpSliceAux,
      divideRows, scaleRow, addRow, rowAt, eps, c7doc, List.replicate_succ,
      List.replicate_zero, List.getD_cons_zero, List.getD_cons_succ]
  · norm_num [backprop, backAux, unpooledRows, splitPairs, batchLengths, docLengths,
      docSpans, spanLen, applyEnts, addToSlice, addToSliceAux, bumpSlice, bumpSliceAux,
      divideRows, scaleRow, addRow, rowAt, eps, c7doc, List.replicate_succ,
      List.replicate_zero, List.getD_cons_zero, List.getD_cons_succ]

/-- Claim C7 (amended): forward-pooling the single-pair document then
back-propagating an all-ones gradient redistributes exactly
(1/3)/(1 + 10⁻¹¹) — one third scaled by the epsilon-guarded divisor, not
exactly 1/3 — to each of the 3 tokens of the only contributing span. -/
theorem claim_C7_epsilon_scaled_third :
    instance_forward [c7doc] = [[2, 6]] ∧
    rowAt ((backprop 1 [c7doc] [[(1 : ℚ), 1]]).getD 0 []) 0 = [(1 : ℚ)/3 / (1 + eps)] ∧
    rowAt ((backprop 1 [c7doc] [[(1 : ℚ), 1]]).getD 0 []) 1 = [(1 : ℚ)/3 / (1 + eps)] ∧
    rowAt ((backprop 1 [c7doc] [[(1 : ℚ), 1]]).getD 0 []) 2 = [(1 : ℚ)/3 / (1 + eps)] := by
  refine ⟨?_, ?_, ?_, ?_⟩
  · norm_num [instance_forward, reduce_mean, splitByLengths, pairConcat, batchEnts,
      docEnts, docTokenIndices, spanIndices, meanRows, sumRows, meanPool, batchLengths,
      docLengths, docSpans, spanLen, rowAt, addRow, scaleRow, c7doc, List.range',
      List.replicate_succ, List.replicate_zero, List.getD_cons_zero, List.getD_cons_succ]
  all_goals
    norm_num [backprop, backAux, unpooledRows, splitPairs, batchLengths, docLengths,
      docSpans, spanLen, applyEnts, addToSlice, addToSliceAux, bumpSlice, bumpSliceAux,
      divideRows, scaleRow, addRow, rowAt, eps, c7doc, List.replicate_succ,
      List.replicate_zero, List.getD_cons_zero, List.getD_cons_succ]

/-- Witness for claim C4: the round-trip document instantiates the backward
characterization at token 0. -/
theorem claim_C4_backward_mean_of_contributions_witness :
    rowAt ((backprop 1 ([] ++ c7doc :: []) ([] ++ [[(1 : ℚ), 1]] ++ [])).getD
        (List.length ([] : List RelModelDoc)) []) 0 =
      specTokenGrad 1 ((docSpans c7doc.instances).zip (splitPairs 1 [[(1 : ℚ), 1]])) 0 ∧
    ((∀ s ∈ docSpans c7doc.instances, ¬ (s.start ≤ 0 ∧ 0 < s.end_)) →
      rowAt ((backprop 1 ([] ++ c7doc :: []) ([] ++ [[(1 : ℚ), 1]] ++ [])).getD
          (List.length ([] : List RelModelDoc)) []) 0 = List.replicate 1 0) :=
  claim_C4_backward_mean_of_contributions 1 [] [] c7doc [] [[(1 : ℚ), 1]] [] rfl rfl
    (by decide) 0 (by decide)
